import Mathlib

/-!
Verification of the RBAC menu / sync-bundle engine of edugo-api-iam-platform.

The Go source is shallowly embedded:
  * Go strings are modelled as lists of characters (`Str`); all inputs used in
    concrete evaluations are ASCII, where Go byte-wise comparison and the
    character-wise lexicographic order on `List Char` agree.
  * UUIDs are modelled as natural numbers (only identity of ids matters).
  * Go maps used as sets or association tables are modelled by association
    lists with Go map-assignment semantics (later assignment wins).
  * SHA-256 digests are modelled by their pre-images wrapped in `HashVal`;
    digest equality is identified with pre-image equality (the standard
    collision-free idealisation of a cryptographic hash).
  * The unbounded recursions of the Go menu builder (ancestor walk and tree
    recursion) are given an explicit fuel argument; the service entry points
    pass fuel `resources.length + 1`, which is enough for every acyclic input,
    matching the source invariant that the resource graph is a forest.
-/

/-- Go string, modelled as a list of characters. -/
abbrev Str := List Char

/-- Convenience conversion from Lean string literals to the Go string model. -/
def str (s : String) : Str := s.data

/-- Splitting on the first colon: models strings.SplitN(s, ":", 2) from Go.
Returns some (before, after) when the string contains a colon and none
otherwise (in which case SplitN returns a single part). -/
def splitFirstColon : Str → Option (Str × Str)
  | [] => none
  | c :: rest =>
    if c = ':' then some ([], rest)
    else
      match splitFirstColon rest with
      | some (l, r) => some (c :: l, r)
      | none => none

/-- Resource entity (entities.Resource) restricted to the fields read by the
menu service: id, key, display metadata, sort order and parent reference. -/
structure Resource where
  id : Nat
  key : Str
  displayName : Str
  icon : Option Str
  scope : Str
  sortOrder : Int
  parentId : Option Nat
deriving DecidableEq, Repr

/-- Menu node DTO (dto.MenuItemDTO). -/
structure MenuItem where
  key : Str
  displayName : Str
  icon : Str
  scope : Str
  sortOrder : Int
  permissions : List Str
  screens : List (Str × Str)
  children : List MenuItem
deriving Repr

/-- Go menu_service.extractResourceKeys: collect the part before the first
colon of each permission, ignoring permissions without a colon, deduplicating
while preserving first-occurrence order. -/
def extractResourceKeys (permissions : List Str) : List Str :=
  permissions.foldl
    (fun (keys : List Str) perm =>
      match splitFirstColon perm with
      | some (res, _) => if res ∈ keys then keys else keys ++ [res]
      | none => keys)
    []

/-- Go map built by `resourceByKey[r.Key] = r` over the list: a lookup returns
the last inserted resource with the given key. -/
def resourceByKey (resources : List Resource) (k : Str) : Option Resource :=
  resources.foldl (fun acc r => if r.key = k then some r else acc) none

/-- Go map built by `resourceByID[r.ID] = r` over the list. -/
def resourceByID (resources : List Resource) (i : Nat) : Option Resource :=
  resources.foldl (fun acc r => if r.id = i then some r else acc) none

/-- Ancestor walk of GetMenuForUser (menu_service.go lines 58-67): starting
from a resource, repeatedly follow the parent reference through the id map,
collecting the key of every ancestor found, stopping at a missing parent.
The Go loop is unbounded; fuel makes it total (sufficient on acyclic input). -/
def ancestorKeys (resources : List Resource) : Nat → Resource → List Str
  | 0, _ => []
  | fuel + 1, res =>
    match res.parentId with
    | none => []
    | some pid =>
      match resourceByID resources pid with
      | some parent => parent.key :: ancestorKeys resources fuel parent
      | none => []

/-- The visible-key set of GetMenuForUser: every extracted resource key plus
every ancestor key reached by the upward walk. The Go code stores these in a
set-valued map; the model keeps the list, membership giving the set. -/
def visibleKeysList (resources : List Resource) (userKeys : List Str) : List Str :=
  userKeys.foldr
    (fun k acc =>
      k ::
        (match resourceByKey resources k with
         | some r => ancestorKeys resources resources.length r
         | none => []) ++ acc)
    []

/-- Permission grouping of GetMenuForUser (permsByResource map): the
permissions whose part before the first colon equals the given key, in input
order. -/
def permsByResource (permissions : List Str) (k : Str) : List Str :=
  permissions.filter
    (fun p =>
      match splitFirstColon p with
      | some (res, _) => res = k
      | none => false)

/-- Root/child filter of buildMenuTree: a resource is emitted at the level
identified by parentID exactly when its parent reference equals parentID
(both nil, or both set and equal). -/
def parentMatches (rp pid : Option Nat) : Bool :=
  match pid, rp with
  | none, none => true
  | none, some _ => false
  | some _, none => false
  | some q, some rq => rq = q

/-- Node construction inside buildMenuTree: display fields from the resource,
permissions from the grouping map when filtering (nil map in unfiltered mode),
screen bindings when present. -/
def mkMenuItem (permsOpt : Option (Str → List Str)) (screens : Str → List (Str × Str))
    (r : Resource) (children : List MenuItem) : MenuItem :=
  { key := r.key
    displayName := r.displayName
    icon := r.icon.getD []
    scope := r.scope
    sortOrder := r.sortOrder
    permissions := match permsOpt with | some f => f r.key | none => []
    screens := screens r.key
    children := children }

/-- Go menu_service.buildMenuTree: walk the resource list in order, keep the
resources that are visible and whose parent reference matches the current
level, and build each kept node with its recursively assembled children.
Fuel bounds the recursion depth (the Go recursion is unbounded). -/
def buildMenuTree (fuel : Nat) (resources : List Resource) (visible : Str → Bool)
    (permsOpt : Option (Str → List Str)) (screens : Str → List (Str × Str))
    (parentID : Option Nat) : List MenuItem :=
  match fuel with
  | 0 => []
  | fuel + 1 =>
    (resources.filter (fun r => visible r.key && parentMatches r.parentId parentID)).map
      (fun r => mkMenuItem permsOpt screens r
        (buildMenuTree fuel resources visible permsOpt screens (some r.id)))

/-- Go menu_service.GetMenuForUser on the success path: extract the user's
resource keys (empty set short-circuits to an empty menu), compute the
visible-key set by the upward walk, and build the filtered tree. The
screen-mapping table loaded by loadScreenMappings is passed in as a function
argument. -/
def getMenuForUser (resources : List Resource) (screens : Str → List (Str × Str))
    (permissions : List Str) : List MenuItem :=
  let resourceKeys := extractResourceKeys permissions
  if resourceKeys.isEmpty then []
  else
    let vis := visibleKeysList resources resourceKeys
    buildMenuTree (resources.length + 1) resources (fun k => k ∈ vis)
      (some (permsByResource permissions)) screens none

/-- Go menu_service.GetFullMenu on the success path: every key of the input
list is visible and the tree is built with a nil permission grouping. -/
def getFullMenu (resources : List Resource) (screens : Str → List (Str × Str)) :
    List MenuItem :=
  buildMenuTree (resources.length + 1) resources
    (fun k => k ∈ resources.map (fun r => r.key)) none screens none

/-- Key collection over a menu forest, depth-first, with an explicit depth
fuel. The service-level theorems always pair a construction fuel with the
same collection fuel, which makes the collection exhaustive because
buildMenuTree with fuel f produces forests of depth at most f. -/
def menuKeysF : Nat → List MenuItem → List Str
  | 0, _ => []
  | fuel + 1, items =>
    items.foldr (fun it acc => it.key :: (menuKeysF fuel it.children ++ acc)) []

/-- Every key appearing anywhere in the filtered user menu. -/
def userMenuKeys (resources : List Resource) (screens : Str → List (Str × Str))
    (permissions : List Str) : List Str :=
  menuKeysF (resources.length + 1) (getMenuForUser resources screens permissions)

/-- Every key appearing anywhere in the unfiltered full menu. -/
def fullMenuKeys (resources : List Resource) (screens : Str → List (Str × Str)) :
    List Str :=
  menuKeysF (resources.length + 1) (getFullMenu resources screens)

/-- Parent-step relation on the resource list: child carries a parent
reference that resolves to par inside the list. -/
def ParentStep (resources : List Resource) (child par : Resource) : Prop :=
  child.parentId = some par.id ∧ par ∈ resources

/-- Anc resources r d states that r is a strict ancestor of d: d reaches r by
following one or more resolvable parent references inside the list. -/
def Anc (resources : List Resource) (r d : Resource) : Prop :=
  Relation.TransGen (ParentStep resources) d r

/-- Upward closure of a key set over the resource list, as stated by the
specification: a key is in the closure when it is itself an extracted key, or
when it names a listed resource that is a strict ancestor of a listed
resource whose key is extracted. -/
def UpClosed (resources : List Resource) (keys : List Str) (k : Str) : Prop :=
  k ∈ keys ∨
    ∃ r d, r ∈ resources ∧ r.key = k ∧ d ∈ resources ∧ d.key ∈ keys ∧
      Anc resources r d

/-- Occurrence count of a key in a key list. -/
def countKey (k : Str) : List Str → Nat
  | [] => 0
  | x :: rest => (if x = k then 1 else 0) + countKey k rest

/-- Membership of a resource in the subtree generated at a given level:
Below resources pid r holds when r is emitted somewhere inside the recursive
build started at level pid (assuming full visibility and enough fuel):
either r sits directly at the level, or r hangs below some resource that
does. -/
inductive Below (resources : List Resource) : Option Nat → Resource → Prop
  | base : ∀ {r : Resource}, r ∈ resources → Below resources r.parentId r
  | step : ∀ {pid : Option Nat} {p r : Resource}, Below resources pid p →
      r ∈ resources → r.parentId = some p.id → Below resources pid r

/-- Occurrence of a node anywhere in a menu forest (at the top level or
nested inside some node's children). -/
inductive OccursIn : MenuItem → List MenuItem → Prop
  | here : ∀ {it : MenuItem} {items : List MenuItem}, it ∈ items → OccursIn it items
  | inside : ∀ {it par : MenuItem} {items : List MenuItem}, par ∈ items →
      OccursIn it par.children → OccursIn it items

/-- Go sort.Strings modelled by insertion sort under the lexicographic order
on character lists (byte-wise order of Go agrees with it on ASCII input). -/
def sortStrings (l : List Str) : List Str := List.insertionSort (· ≤ ·) l

/-- Go strings.Join(list, ",") over the string model. -/
def joinComma : List Str → Str
  | [] => []
  | [x] => x
  | x :: xs => x ++ ',' :: joinComma xs

/-- Go sync_service.hashPermissions modelled by its SHA-256 pre-image: the
comma-join of the sorted copy of the permission list. Digest equality is
identified with pre-image equality (collision-free idealisation), so the
digest step itself is dropped from the model. -/
def hashPermissions (permissions : List Str) : Str :=
  joinComma (sortStrings permissions)

/-- Inverse of the comma-join on comma-free chunks (standard split on the
comma character), used to prove the join injective on comma-free lists. -/
def splitCommaStr : Str → List Str
  | [] => [[]]
  | c :: rest =>
    let ws := splitCommaStr rest
    if c = ',' then [] :: ws
    else (c :: ws.headD []) :: ws.tail

/-- Decimal digit character (0-9); only ever applied to values below ten. -/
def digitChar : Nat → Char
  | 0 => '0'
  | 1 => '1'
  | 2 => '2'
  | 3 => '3'
  | 4 => '4'
  | 5 => '5'
  | 6 => '6'
  | 7 => '7'
  | 8 => '8'
  | _ => '9'

/-- Decimal rendering of a natural number with explicit fuel (structural so
that concrete instances evaluate); natToStr supplies sufficient fuel. -/
def natToStrAux : Nat → Nat → Str
  | 0, _ => []
  | fuel + 1, n =>
    if n < 10 then [digitChar n]
    else natToStrAux fuel (n / 10) ++ [digitChar (n % 10)]

/-- Decimal rendering of a natural number, modelling the %d verb of fmt. -/
def natToStr (n : Nat) : Str := natToStrAux (n + 1) n

/-- Accumulator-style decimal reading, inverse of natToStr on its image. -/
def strToNatAux : Str → Nat → Nat
  | [], acc => acc
  | c :: rest, acc => strToNatAux rest (acc * 10 + (c.toNat - 48))

/-- Go sync_service.hashScreen modelled by its SHA-256 pre-image: the string
fmt.Sprintf("%d:%s", version, updatedAt). The updatedAt argument is the
RFC3339Nano-formatted UTC timestamp string the Go code passes in. -/
def hashScreen (version : Nat) (updatedAt : Str) : Str :=
  natToStr version ++ ':' :: updatedAt

/-- Raw JSON message (json.RawMessage) modelled as its text. -/
abbrev Json := Str

/-- Persistence failure token. -/
inductive DBErr
  | dbError
deriving DecidableEq, Repr

/-- Screen instance entity restricted to the fields the sync path reads; the
updatedAt field carries the already-formatted UTC timestamp. -/
structure ScreenInstance where
  id : Nat
  screenKey : Str
  templateId : Nat
  name : Str
  description : Option Str
  slotData : Json
  scope : Str
  requiredPermission : Option Str
  handlerKey : Option Str
  updatedAt : Str
deriving DecidableEq, Repr

/-- Screen template entity restricted to the fields the sync path reads. -/
structure ScreenTemplate where
  id : Nat
  pattern : Str
  name : Str
  description : Option Str
  version : Nat
  definition : Json
  updatedAt : Str
deriving DecidableEq, Repr

/-- Combined screen DTO (CombinedScreenDTO) produced by ResolveScreenByKey. -/
structure CombinedScreen where
  screenId : Nat
  screenKey : Str
  screenName : Str
  pattern : Str
  version : Nat
  template : Json
  slotData : Json
  handlerKey : Option Str
  updatedAt : Str
deriving DecidableEq, Repr

/-- Field combination of resource_service.ResolveScreenByKey: pattern,
version and definition come from the template, everything else from the
instance. -/
def combineScreen (inst : ScreenInstance) (tmpl : ScreenTemplate) : CombinedScreen :=
  { screenId := inst.id
    screenKey := inst.screenKey
    screenName := inst.name
    pattern := tmpl.pattern
    version := tmpl.version
    template := tmpl.definition
    slotData := inst.slotData
    handlerKey := inst.handlerKey
    updatedAt := inst.updatedAt }

/-- Go screenConfigService.ResolveScreenByKey: look up the active instance by
key, then its template by id, and combine them. -/
def resolveScreenByKey (getInst : Str → Except DBErr ScreenInstance)
    (getTmpl : Nat → Except DBErr ScreenTemplate) (key : Str) :
    Except DBErr CombinedScreen :=
  match getInst key with
  | .error e => .error e
  | .ok inst =>
    match getTmpl inst.templateId with
    | .error e => .error e
    | .ok tmpl => .ok (combineScreen inst tmpl)

/-- Screen bundle DTO stored in the sync bundle (dto.ScreenBundle). -/
structure ScreenBundle where
  screenKey : Str
  screenName : Str
  pattern : Str
  version : Nat
  template : Json
  slotData : Json
  handlerKey : Option Str
deriving DecidableEq, Repr

/-- ScreenBundle construction inside the screens goroutine of GetFullBundle. -/
def toScreenBundle (r : CombinedScreen) : ScreenBundle :=
  { screenKey := r.screenKey
    screenName := r.screenName
    pattern := r.pattern
    version := r.version
    template := r.template
    slotData := r.slotData
    handlerKey := r.handlerKey }

/-- Available-context DTO (auth dto.UserContextDTO). -/
structure UserContextDTO where
  roleId : Str
  roleName : Str
  schoolId : Str
  schoolName : Str
  academicUnitId : Str
  academicUnitName : Str
  permissions : List Str
deriving DecidableEq, Repr

/-- Shared auth.UserContext: the token-embedded active context, restricted to
the fields the services read. -/
structure UserContext where
  roleId : Nat
  roleName : Str
  schoolId : Option Nat
  permissions : List Str
deriving DecidableEq, Repr

/-- Go map assignment m[k] = v on an association-list model: replace the
binding in place when the key is present, append otherwise. -/
def goInsert {α : Type} (m : List (Str × α)) (k : Str) (v : α) : List (Str × α) :=
  if m.any (fun kv => kv.1 = k) then
    m.map (fun kv => if kv.1 = k then (k, v) else kv)
  else m ++ [(k, v)]

/-- Go map lookup on the association-list model. -/
def lookupStr {α : Type} (m : List (Str × α)) (k : Str) : Option α :=
  match m.find? (fun kv => kv.1 = k) with
  | some kv => some kv.2
  | none => none

/-- Canonical serialization of the menu payload, standing in for the
json.Marshal input of hashJSON; depth-bounded so that it evaluates. No claim
depends on its inner structure, only on it being a function of the payload. -/
def serializeMenuF : Nat → List MenuItem → Str
  | 0, _ => []
  | fuel + 1, items =>
    items.foldr
      (fun it acc =>
        it.key ++ '|' :: it.displayName ++ '|' :: it.icon ++ '|' :: it.scope ++
          '|' :: joinComma it.permissions ++ '{' :: serializeMenuF fuel it.children ++
          '}' :: acc)
      []

/-- Canonical serialization of the available-contexts payload for hashJSON. -/
def serializeContexts (cs : List UserContextDTO) : Str :=
  cs.foldr
    (fun c acc =>
      c.roleId ++ '|' :: c.roleName ++ '|' :: c.schoolId ++ '|' :: c.schoolName ++
        '|' :: c.academicUnitId ++ '|' :: joinComma c.permissions ++ ';' :: acc)
    []

/-- Ordering used by GetFullBundle to sort available contexts before hashing
(school id first, then role id). -/
def ctxLe (a b : UserContextDTO) : Prop :=
  a.schoolId < b.schoolId ∨ (a.schoolId = b.schoolId ∧ a.roleId ≤ b.roleId)

instance : ∀ a b : UserContextDTO, Decidable (ctxLe a b) := fun a b => by
  unfold ctxLe
  infer_instance

/-- Collaborator results consumed by the sync service for one request: the
menu service data (resource list, screen mappings and whether the resource
fetch fails), the available-contexts call, the screen-instance listing and
the screen resolver. -/
structure SyncEnv where
  menuDbError : Bool
  resources : List Resource
  resScreens : Str → List (Str × Str)
  contextsResult : Except DBErr (List UserContextDTO)
  instancesResult : Except DBErr (List ScreenInstance)
  resolve : Str → Except DBErr CombinedScreen

/-- Sync bundle (dto.SyncBundleResponse) with hashes as an association list. -/
structure SyncBundle where
  menu : List MenuItem
  permissions : List Str
  screens : List (Str × ScreenBundle)
  availableContexts : List UserContextDTO
  hashes : List (Str × Str)

/-- Body of the screens goroutine loop of GetFullBundle for one instance:
resolve the screen (skipping it when resolution fails) and store the bundle
under the screen key and the hash under screen:key. -/
def screensStep (resolve : Str → Except DBErr CombinedScreen)
    (acc : List (Str × ScreenBundle) × List (Str × Str))
    (inst : ScreenInstance) : List (Str × ScreenBundle) × List (Str × Str) :=
  match resolve inst.screenKey with
  | .error _ => acc
  | .ok r =>
    (goInsert acc.1 inst.screenKey (toScreenBundle r),
     goInsert acc.2 (str "screen:" ++ inst.screenKey) (hashScreen r.version r.updatedAt))

/-- Go syncService.GetFullBundle, sequentialised: the concurrency of the four
bucket goroutines is out of model scope; the spec states the resulting bundle
is deterministic given the same backing data, so the buckets are computed in
a fixed order. All hashes stand for their SHA-256 pre-images. Soft failures
degrade menu/contexts to empty payloads with hashes of the empty payload and
leave the screens bucket empty, exactly as in the source. -/
def getFullBundle (env : SyncEnv) (ctx : UserContext) (buckets : List Str) : SyncBundle :=
  let loadAll := buckets.isEmpty
  let want := fun (b : Str) => loadAll || buckets.contains b
  let menuPair : List MenuItem × List (Str × Str) :=
    if want (str "menu") then
      if env.menuDbError then
        ([], [(str "menu", serializeMenuF (env.resources.length + 1) [])])
      else
        let items := getMenuForUser env.resources env.resScreens ctx.permissions
        (items, [(str "menu", serializeMenuF (env.resources.length + 1) items)])
    else ([], [])
  let permsPair : List Str × List (Str × Str) :=
    if want (str "permissions") then
      (ctx.permissions, [(str "permissions", hashPermissions ctx.permissions)])
    else ([], [])
  let ctxPair : List UserContextDTO × List (Str × Str) :=
    if want (str "available_contexts") then
      match env.contextsResult with
      | .error _ => ([], [(str "available_contexts", serializeContexts [])])
      | .ok cs =>
        let sorted := List.insertionSort ctxLe cs
        (sorted, [(str "available_contexts", serializeContexts sorted)])
    else ([], [])
  let screensPair : List (Str × ScreenBundle) × List (Str × Str) :=
    if want (str "screens") then
      match env.instancesResult with
      | .error _ => ([], [])
      | .ok instances => instances.foldl (screensStep env.resolve) ([], [])
    else ([], [])
  { menu := menuPair.1
    permissions := permsPair.1
    screens := screensPair.1
    availableContexts := ctxPair.1
    hashes := menuPair.2 ++ permsPair.2 ++ ctxPair.2 ++ screensPair.2 }

/-- Extracted JSON payload of one bucket (sync_service.extractBucketData). -/
inductive BucketJSON
  | menu : List MenuItem → BucketJSON
  | perms : List Str → BucketJSON
  | contexts : List UserContextDTO → BucketJSON
  | screen : ScreenBundle → BucketJSON
  | null : BucketJSON

/-- Go syncService.extractBucketData: dispatch on the bucket key; screen
buckets strip the screen: prefix and look the bundle up, marshalling null
when absent; unknown keys marshal null. -/
def extractBucketData (bundle : SyncBundle) (key : Str) : BucketJSON :=
  if key = str "menu" then .menu bundle.menu
  else if key = str "permissions" then .perms bundle.permissions
  else if key = str "available_contexts" then .contexts bundle.availableContexts
  else if (str "screen:").isPrefixOf key then
    match lookupStr bundle.screens (key.drop 7) with
    | some sb => .screen sb
    | none => .null
  else .null

/-- One changed bucket (dto.BucketData). -/
structure BucketData where
  data : BucketJSON
  hash : Str

/-- Delta sync response (dto.DeltaSyncResponse). -/
structure DeltaResp where
  changed : List (Str × BucketData)
  unchanged : List Str

/-- Partition loop of GetDeltaSync over the server hash map: a key whose
client hash matches is unchanged; every other server key is changed and
carries its extracted payload and the server hash. -/
def deltaPartition (client : List (Str × Str)) (bundle : SyncBundle) :
    List (Str × Str) → List (Str × BucketData) × List Str
  | [] => ([], [])
  | (k, h) :: rest =>
    let acc := deltaPartition client bundle rest
    match lookupStr client k with
    | some ch =>
      if ch = h then (acc.1, k :: acc.2)
      else ((k, ⟨extractBucketData bundle k, h⟩) :: acc.1, acc.2)
    | none => ((k, ⟨extractBucketData bundle k, h⟩) :: acc.1, acc.2)

/-- Go syncService.GetDeltaSync: compute the full bundle (all buckets),
partition its hash map against the client hashes, and sort the unchanged
keys. -/
def getDeltaSync (env : SyncEnv) (ctx : UserContext) (client : List (Str × Str)) :
    DeltaResp :=
  let bundle := getFullBundle env ctx []
  let parts := deltaPartition client bundle bundle.hashes
  { changed := parts.1, unchanged := sortStrings parts.2 }

/-- User entity (shared identity store) restricted to the fields read here. -/
structure User where
  id : Nat
  email : Str
  isActive : Bool
deriving DecidableEq, Repr

/-- Role entity restricted to the fields read by the auth service. -/
structure Role where
  id : Nat
  name : Str
deriving DecidableEq, Repr

/-- Active role assignment row (entities.UserRole) restricted to the fields
read by buildUserContext. -/
structure UserRole where
  id : Nat
  roleId : Nat
  schoolId : Option Nat
  academicUnitId : Option Nat
deriving DecidableEq, Repr

/-- Membership row (entities.Membership); only its presence matters to
SwitchContext. -/
structure SchoolMembership where
  userId : Nat
  schoolId : Nat
deriving DecidableEq, Repr

/-- School entity; only existence and name are read. -/
structure School where
  id : Nat
  name : Str
deriving DecidableEq, Repr

/-- Issued token pair. -/
structure TokenPair where
  accessToken : Str
  refreshToken : Str
  expiresIn : Int
deriving DecidableEq, Repr

/-- Collaborator stores consumed by the auth service for one request,
mirroring the repository interfaces (user, membership, school, user-role and
role stores plus the token issuer). -/
structure AuthEnv where
  findUserByID : Nat → Except DBErr (Option User)
  findMembership : Nat → Nat → Except DBErr (Option SchoolMembership)
  findSchoolByID : Nat → Except DBErr (Option School)
  findByUserInContext : Nat → Option Nat → Option Nat → Except DBErr (List UserRole)
  roleFindByID : Nat → Except DBErr (Option Role)
  getUserPermissions : Nat → Option Nat → Option Nat → Except DBErr (List Str)
  genTokens : Except Unit TokenPair

/-- Run-time fault of the Go code reached by the model. -/
inductive GoPanic
  | nilRoleDeref
deriving DecidableEq, Repr

/-- Go authService.buildUserContext: returns nil (absent) when the role query
fails or matches nothing, or when the role lookup errors; a permission-fetch
failure degrades to an empty permission set. When the role lookup returns
no role and no error (role missing or inactive: postgresRoleRepository
FindByID returns nil, nil on gorm.ErrRecordNotFound), the source dereferences
the nil role pointer (role.ID.String()), modelled as a panic. -/
def buildUserContext (env : AuthEnv) (userID : Nat) (schoolID : Option Nat) :
    Except GoPanic (Option UserContext) :=
  match env.findByUserInContext userID schoolID none with
  | .error _ => .ok none
  | .ok userRoles =>
    match userRoles with
    | [] => .ok none
    | firstRole :: _ =>
      match env.roleFindByID firstRole.roleId with
      | .error _ => .ok none
      | .ok roleOpt =>
        let permissions :=
          match env.getUserPermissions userID schoolID none with
          | .error _ => []
          | .ok ps => ps
        match roleOpt with
        | none => .error .nilRoleDeref
        | some role =>
          .ok (some { roleId := role.id, roleName := role.name,
                      schoolId := schoolID, permissions := permissions })

/-- Externally observable failures of SwitchContext. -/
inductive SwitchErr
  | dbFindUser
  | userNotFound
  | userInactive
  | dbMembership
  | noMembership
  | dbVerifySchool
  | invalidSchoolID
  | noRolesInTarget
  | tokenGen
  | panic (p : GoPanic)
deriving DecidableEq, Repr

/-- Success payload of SwitchContext (dto.SwitchContextResponse). -/
structure SwitchContextResponse where
  tokens : TokenPair
  schoolId : Nat
  role : Str
  userId : Nat
  email : Str
deriving DecidableEq, Repr

/-- Token generation and response assembly shared by both SwitchContext
branches. -/
def switchContextFinish (env : AuthEnv) (user : User) (targetSchoolID : Nat)
    (ctx : UserContext) : Except SwitchErr SwitchContextResponse :=
  match env.genTokens with
  | .error _ => .error .tokenGen
  | .ok tp =>
    .ok { tokens := tp, schoolId := targetSchoolID, role := ctx.roleName,
          userId := user.id, email := user.email }

/-- Go authService.SwitchContext after the two uuid.Parse steps succeed:
find the user (must exist and be active); look the membership up; without a
membership, resolve a global (unscoped) context — its absence is the
no-membership error — and only then require the target school to exist; with
a membership, resolve scoped to the target school. -/
def switchContext (env : AuthEnv) (userID targetSchoolID : Nat) :
    Except SwitchErr SwitchContextResponse :=
  match env.findUserByID userID with
  | .error _ => .error .dbFindUser
  | .ok none => .error .userNotFound
  | .ok (some user) =>
    if !user.isActive then .error .userInactive
    else
      match env.findMembership userID targetSchoolID with
      | .error _ => .error .dbMembership
      | .ok none =>
        match buildUserContext env userID none with
        | .error p => .error (.panic p)
        | .ok none => .error .noMembership
        | .ok (some globalContext) =>
          match env.findSchoolByID targetSchoolID with
          | .error _ => .error .dbVerifySchool
          | .ok none => .error .invalidSchoolID
          | .ok (some _) =>
            switchContextFinish env user targetSchoolID
              { globalContext with schoolId := some targetSchoolID }
      | .ok (some _) =>
        match buildUserContext env userID (some targetSchoolID) with
        | .error p => .error (.panic p)
        | .ok none => .error .noRolesInTarget
        | .ok (some activeContext) =>
          switchContextFinish env user targetSchoolID activeContext

/-- Update request for a screen template (service.UpdateTemplateRequest);
a none field means the request omitted it. -/
structure UpdateTemplateReq where
  pattern : Option Str
  name : Option Str
  description : Option Str
  definition : Option Json
deriving DecidableEq, Repr

/-- Go screenConfigService.UpdateTemplate, field-application core (after the
id parse and GetByID succeed, before persistence): each supplied field
overwrites the stored one, a supplied definition also increments the version,
and updatedAt becomes the call time. -/
def updateTemplate (template : ScreenTemplate) (req : UpdateTemplateReq)
    (now : Str) : ScreenTemplate :=
  let t1 := match req.pattern with
    | some p => { template with pattern := p }
    | none => template
  let t2 := match req.name with
    | some n2 => { t1 with name := n2 }
    | none => t1
  let t3 := match req.description with
    | some d => { t2 with description := some d }
    | none => t2
  let t4 := match req.definition with
    | some d => { t3 with definition := d, version := t3.version + 1 }
    | none => t3
  { t4 with updatedAt := now }

theorem resourceByKey_mem {resources : List Resource} {k : Str} {r : Resource}
    (h : resourceByKey resources k = some r) : r ∈ resources ∧ r.key = k := by
  unfold resourceByKey at h
  induction resources using List.reverseRecOn with
  | nil => simp at h
  | append_singleton xs x ih =>
    rw [List.foldl_append] at h
    simp only [List.foldl_cons, List.foldl_nil] at h
    by_cases hx : x.key = k
    · simp [hx] at h
      subst h
      exact ⟨List.mem_append_right _ (List.mem_singleton.mpr rfl), hx⟩
    · simp [hx] at h
      rcases ih h with ⟨hm, hk⟩
      exact ⟨List.mem_append_left _ hm, hk⟩

theorem resourceByID_mem {resources : List Resource} {i : Nat} {r : Resource}
    (h : resourceByID resources i = some r) : r ∈ resources ∧ r.id = i := by
  unfold resourceByID at h
  induction resources using List.reverseRecOn with
  | nil => simp at h
  | append_singleton xs x ih =>
    rw [List.foldl_append] at h
    simp only [List.foldl_cons, List.foldl_nil] at h
    by_cases hx : x.id = i
    · simp [hx] at h
      subst h
      exact ⟨List.mem_append_right _ (List.mem_singleton.mpr rfl), hx⟩
    · simp [hx] at h
      rcases ih h with ⟨hm, hk⟩
      exact ⟨List.mem_append_left _ hm, hk⟩

theorem ancestorKeys_anc {resources : List Resource} :
    ∀ (fuel : Nat) (res : Resource) (x : Str), x ∈ ancestorKeys resources fuel res →
      ∃ p, p ∈ resources ∧ p.key = x ∧ Relation.TransGen (ParentStep resources) res p := by
  intro fuel
  induction fuel with
  | zero => intro res x h; simp [ancestorKeys] at h
  | succ n ih =>
    intro res x h
    unfold ancestorKeys at h
    rcases hp : res.parentId with _ | pid
    · simp [hp] at h
    · simp only [hp] at h
      rcases hq : resourceByID resources pid with _ | parent
      · simp [hq] at h
      · simp only [hq] at h
        rcases resourceByID_mem hq with ⟨hmem, hid⟩
        have hstep : ParentStep resources res parent := ⟨by rw [hp, hid], hmem⟩
        rcases List.mem_cons.mp h with h1 | h2
        · exact ⟨parent, hmem, h1.symm, Relation.TransGen.single hstep⟩
        · rcases ih parent x h2 with ⟨p, hpmem, hpk, htg⟩
          exact ⟨p, hpmem, hpk, Relation.TransGen.head hstep htg⟩

theorem visibleKeysList_upclosed {resources : List Resource} {userKeys : List Str}
    {k : Str} (h : k ∈ visibleKeysList resources userKeys) :
    UpClosed resources userKeys k := by
  unfold visibleKeysList at h
  induction userKeys with
  | nil => simp at h
  | cons u us ih =>
    simp only [List.foldr_cons] at h
    rcases List.mem_cons.mp h with h1 | h2
    · exact Or.inl (h1 ▸ List.mem_cons_self u us)
    · rcases List.mem_append.mp h2 with h3 | h4
      · rcases hq : resourceByKey resources u with _ | r0
        · rw [hq] at h3; simp at h3
        · rw [hq] at h3
          rcases resourceByKey_mem hq with ⟨hr0mem, hr0key⟩
          rcases ancestorKeys_anc _ r0 k h3 with ⟨p, hpmem, hpk, htg⟩
          exact Or.inr ⟨p, r0, hpmem, hpk, hr0mem,
            hr0key ▸ List.mem_cons_self u us, htg⟩
      · rcases ih h4 with h5 | ⟨r, d, hr, hk, hd, hdk, htg⟩
        · exact Or.inl (List.mem_cons_of_mem _ h5)
        · exact Or.inr ⟨r, d, hr, hk, hd, List.mem_cons_of_mem _ hdk, htg⟩

theorem anc_target_mem {resources : List Resource} {d a : Resource}
    (h : Relation.TransGen (ParentStep resources) d a) : a ∈ resources := by
  induction h with
  | single h => exact h.2
  | tail _ h _ => exact h.2

theorem parentMatches_iff {rp pid : Option Nat} : parentMatches rp pid = true ↔ rp = pid := by
  cases pid <;> cases rp <;> simp [parentMatches]

theorem buildMenuTree_succ (fuel : Nat) (resources : List Resource) (vis : Str → Bool)
    (p : Option (Str → List Str)) (s : Str → List (Str × Str)) (pid : Option Nat) :
    buildMenuTree (fuel + 1) resources vis p s pid =
      (resources.filter (fun r => vis r.key && parentMatches r.parentId pid)).map
        (fun r => mkMenuItem p s r (buildMenuTree fuel resources vis p s (some r.id))) := rfl

theorem menuKeysF_succ (fuel : Nat) (it : MenuItem) (rest : List MenuItem) :
    menuKeysF (fuel + 1) (it :: rest) =
      it.key :: (menuKeysF fuel it.children ++ menuKeysF (fuel + 1) rest) := rfl

theorem menuKeysF_append (fuel : Nat) (l₁ l₂ : List MenuItem) :
    menuKeysF (fuel + 1) (l₁ ++ l₂) =
      menuKeysF (fuel + 1) l₁ ++ menuKeysF (fuel + 1) l₂ := by
  induction l₁ with
  | nil => simp [menuKeysF]
  | cons it rest ih => simp [menuKeysF_succ, ih]

theorem mem_menuKeysF_iff {k : Str} {fuel : Nat} {items : List MenuItem} :
    k ∈ menuKeysF (fuel + 1) items ↔
      ∃ it, it ∈ items ∧ (k = it.key ∨ k ∈ menuKeysF fuel it.children) := by
  induction items with
  | nil => simp [menuKeysF]
  | cons it rest ih =>
    rw [menuKeysF_succ]
    simp only [List.mem_cons, List.mem_append]
    constructor
    · rintro (h | h | h)
      · exact ⟨it, Or.inl rfl, Or.inl h⟩
      · exact ⟨it, Or.inl rfl, Or.inr h⟩
      · rcases ih.mp h with ⟨it2, h1, h2⟩
        exact ⟨it2, Or.inr h1, h2⟩
    · rintro ⟨it2, h1 | h1, h2⟩
      · subst h1
        rcases h2 with h2 | h2
        · exact Or.inl h2
        · exact Or.inr (Or.inl h2)
      · exact Or.inr (Or.inr (ih.mpr ⟨it2, h1, h2⟩))

theorem menuKeys_build_sound {resources : List Resource} {vis : Str → Bool}
    {p : Option (Str → List Str)} {s : Str → List (Str × Str)} :
    ∀ (fuel : Nat) (pid : Option Nat) (k : Str),
      k ∈ menuKeysF fuel (buildMenuTree fuel resources vis p s pid) →
      ∃ r, r ∈ resources ∧ r.key = k ∧ vis r.key = true ∧
        (parentMatches r.parentId pid = true ∨
          ∃ m, m ∈ resources ∧ vis m.key = true ∧ r.parentId = some m.id) := by
  intro fuel
  induction fuel with
  | zero => intro pid k h; simp [menuKeysF] at h
  | succ n ih =>
    intro pid k h
    rw [buildMenuTree_succ] at h
    rcases mem_menuKeysF_iff.mp h with ⟨it, hit, hcase⟩
    rcases List.mem_map.mp hit with ⟨r, hrfilter, hval⟩
    subst hval
    have hrmem := List.mem_filter.mp hrfilter
    have hpred := hrmem.2
    simp only [Bool.and_eq_true] at hpred
    rcases hcase with hk | hk
    · simp only [mkMenuItem] at hk
      exact ⟨r, hrmem.1, hk.symm, hpred.1, Or.inl hpred.2⟩
    · simp only [mkMenuItem] at hk
      rcases ih (some r.id) k hk with ⟨r2, h1, h2, h3, h4⟩
      rcases h4 with h4 | h4
      · have : r2.parentId = some r.id := parentMatches_iff.mp h4
        exact ⟨r2, h1, h2, h3, Or.inr ⟨r, hrmem.1, hpred.1, this⟩⟩
      · exact ⟨r2, h1, h2, h3, Or.inr h4⟩

theorem menuKeys_build_closed {resources : List Resource} {vis : Str → Bool}
    {p : Option (Str → List Str)} {s : Str → List (Str × Str)}
    (hkeys : (resources.map (fun r => r.key)).Nodup)
    (hids : (resources.map (fun r => r.id)).Nodup) :
    ∀ (fuel : Nat) (pid0 : Option Nat) (k : Str) (r q : Resource),
      k ∈ menuKeysF fuel (buildMenuTree fuel resources vis p s pid0) →
      r ∈ resources → r.key = k → q ∈ resources → r.parentId = some q.id →
      q.key ∈ menuKeysF fuel (buildMenuTree fuel resources vis p s pid0) ∨
        pid0 = some q.id := by
  intro fuel
  induction fuel with
  | zero => intro pid0 k r q h _ _ _ _; simp [menuKeysF] at h
  | succ n ih =>
    intro pid0 k r q h hr hk hq hpar
    rw [buildMenuTree_succ] at h ⊢
    rcases mem_menuKeysF_iff.mp h with ⟨it, hit, hcase⟩
    rcases List.mem_map.mp hit with ⟨rl, hrlfilter, hval⟩
    subst hval
    have hrlmem := List.mem_filter.mp hrlfilter
    have hpred := hrlmem.2
    simp only [Bool.and_eq_true] at hpred
    rcases hcase with hk2 | hk2
    · simp only [mkMenuItem] at hk2
      have hrrl : r = rl :=
        List.inj_on_of_nodup_map hkeys hr hrlmem.1 (by rw [hk, hk2])
      right
      rw [← parentMatches_iff.mp hpred.2, ← hrrl, hpar]
    · simp only [mkMenuItem] at hk2
      rcases ih (some rl.id) k r q hk2 hr hk hq hpar with h1 | h1
      · left
        apply mem_menuKeysF_iff.mpr
        refine ⟨mkMenuItem p s rl (buildMenuTree n resources vis p s (some rl.id)),
          List.mem_map.mpr ⟨rl, hrlfilter, rfl⟩, Or.inr ?_⟩
        simpa [mkMenuItem] using h1
      · have hqrl : q = rl :=
          List.inj_on_of_nodup_map hids hq hrlmem.1 (by injection h1 with hh; exact hh.symm)
        left
        apply mem_menuKeysF_iff.mpr
        refine ⟨mkMenuItem p s rl (buildMenuTree n resources vis p s (some rl.id)),
          List.mem_map.mpr ⟨rl, hrlfilter, rfl⟩, Or.inl ?_⟩
        simp [mkMenuItem, hqrl]

theorem getMenuForUser_closed_step {resources : List Resource}
    {screens : Str → List (Str × Str)} {permissions : List Str}
    (hkeys : (resources.map (fun r => r.key)).Nodup)
    (hids : (resources.map (fun r => r.id)).Nodup)
    {r q : Resource} (hr : r ∈ resources) (hq : q ∈ resources)
    (hpar : r.parentId = some q.id)
    (hin : r.key ∈ userMenuKeys resources screens permissions) :
    q.key ∈ userMenuKeys resources screens permissions := by
  simp only [userMenuKeys, getMenuForUser] at hin ⊢
  by_cases hE : (extractResourceKeys permissions).isEmpty = true
  · rw [if_pos hE] at hin
    simp [menuKeysF] at hin
  · rw [if_neg hE] at hin ⊢
    rcases menuKeys_build_closed hkeys hids _ _ _ r q hin hr rfl hq hpar with h | h
    · exact h
    · exact absurd h (by simp)

/-- C1: in the permission-filtered menu build, every emitted key lies in the
upward closure of the resource keys extracted from the permission set (the
key itself carries a permission, or a listed descendant of its resource
does), and for every emitted node of the input list, every strict ancestor of
it present in the input list is also emitted. -/
theorem menu_filtered_upward_closure (resources : List Resource)
    (screens : Str → List (Str × Str)) (permissions : List Str)
    (hkeys : (resources.map (fun r => r.key)).Nodup)
    (hids : (resources.map (fun r => r.id)).Nodup) :
    (∀ k, k ∈ userMenuKeys resources screens permissions →
        UpClosed resources (extractResourceKeys permissions) k) ∧
    (∀ d a, d ∈ resources → Anc resources a d →
        d.key ∈ userMenuKeys resources screens permissions →
        a.key ∈ userMenuKeys resources screens permissions) := by
  constructor
  · intro k hk
    simp only [userMenuKeys, getMenuForUser] at hk
    by_cases hE : (extractResourceKeys permissions).isEmpty = true
    · rw [if_pos hE] at hk
      simp [menuKeysF] at hk
    · rw [if_neg hE] at hk
      rcases menuKeys_build_sound _ _ _ hk with ⟨r, _, hrk, hvis, _⟩
      have hmem : r.key ∈ visibleKeysList resources (extractResourceKeys permissions) :=
        of_decide_eq_true hvis
      exact hrk ▸ visibleKeysList_upclosed hmem
  · intro d a hd hanc hin
    induction hanc with
    | single h =>
      exact getMenuForUser_closed_step hkeys hids hd h.2 h.1 hin
    | tail h₁ h₂ ih =>
      exact getMenuForUser_closed_step hkeys hids (anc_target_mem h₁) h₂.2 h₂.1 ih

/-- Witness for C1: a two-node chain where only the child carries a
permission; the parent key lies in the upward closure. -/
theorem menu_filtered_upward_closure_witness :
    UpClosed [⟨1, str "a", str "A", none, str "p", 1, none⟩,
              ⟨2, str "a.b", str "B", none, str "p", 2, some 1⟩]
      (extractResourceKeys [str "a.b:read"]) (str "a") :=
  (menu_filtered_upward_closure
      [⟨1, str "a", str "A", none, str "p", 1, none⟩,
       ⟨2, str "a.b", str "B", none, str "p", 2, some 1⟩]
      (fun _ => []) [str "a.b:read"] (by decide) (by decide)).1 (str "a") (by decide)

/-- C2 counterexample: a single visible resource whose parent reference does
not resolve in the input list: its key is in the visible key set and its
parent is certainly not, yet the filtered build emits nothing, so the
resource is dropped instead of appearing as a root. -/
theorem menu_orphan_root_cex :
    (str "child") ∈ visibleKeysList
        [⟨1, str "child", str "Child", none, str "p", 1, some 99⟩]
        (extractResourceKeys [str "child:read"]) ∧
    getMenuForUser [⟨1, str "child", str "Child", none, str "p", 1, some 99⟩]
        (fun _ => []) [str "child:read"] = [] :=
  ⟨by decide, rfl⟩

/-- C2 amended: when the extracted key set is non-empty, a resource of the
input list appears as a root of the filtered forest exactly when it is in the
visible key set and carries no parent reference at all; a visible resource
whose parent reference does not resolve inside the input list is dropped from
the output entirely rather than emitted as a root. -/
theorem menu_roots_amended (resources : List Resource)
    (screens : Str → List (Str × Str)) (permissions : List Str)
    (hkeys : (resources.map (fun r => r.key)).Nodup)
    (hne : (extractResourceKeys permissions).isEmpty = false) :
    (∀ r, r ∈ resources →
      (r.key ∈ (getMenuForUser resources screens permissions).map (fun it => it.key) ↔
        (r.key ∈ visibleKeysList resources (extractResourceKeys permissions) ∧
          r.parentId = none))) ∧
    (∀ r pid, r ∈ resources → r.parentId = some pid →
      (∀ m, m ∈ resources → m.id ≠ pid) →
      r.key ∉ userMenuKeys resources screens permissions) := by
  constructor
  · intro r hr
    simp only [getMenuForUser]
    rw [if_neg (by simp [hne])]
    rw [buildMenuTree_succ, List.map_map]
    constructor
    · intro hmem
      rcases List.mem_map.mp hmem with ⟨r2, hr2f, hr2k⟩
      have hr2 := List.mem_filter.mp hr2f
      have heq : r2 = r :=
        List.inj_on_of_nodup_map hkeys hr2.1 hr (by simpa [mkMenuItem] using hr2k)
      subst heq
      have hpred := hr2.2
      simp only [Bool.and_eq_true] at hpred
      exact ⟨of_decide_eq_true hpred.1, parentMatches_iff.mp hpred.2⟩
    · rintro ⟨hvis, hparent⟩
      apply List.mem_map.mpr
      refine ⟨r, List.mem_filter.mpr ⟨hr, ?_⟩, by simp [mkMenuItem]⟩
      simp [hvis, hparent, parentMatches]
  · intro r pid hr hpar hnone hm
    simp only [userMenuKeys, getMenuForUser] at hm
    rw [if_neg (by simp [hne])] at hm
    rcases menuKeys_build_sound _ _ _ hm with ⟨r2, hr2, hr2k, _, hdisj⟩
    have heq : r2 = r := List.inj_on_of_nodup_map hkeys hr2 hr hr2k
    subst heq
    rcases hdisj with h | ⟨m, hmm, _, hpm⟩
    · rw [parentMatches_iff.mp h] at hpar; cases hpar
    · rw [hpar] at hpm
      injection hpm with hh
      exact hnone m hmm hh.symm

/-- Witness for the amended C2 at the counterexample input: the orphan is
dropped. -/
theorem menu_roots_amended_witness :
    (str "child") ∉ userMenuKeys
      [⟨1, str "child", str "Child", none, str "p", 1, some 99⟩]
      (fun _ => []) [str "child:read"] :=
  (menu_roots_amended
      [⟨1, str "child", str "Child", none, str "p", 1, some 99⟩]
      (fun _ => []) [str "child:read"] (by decide) (by decide)).2
    ⟨1, str "child", str "Child", none, str "p", 1, some 99⟩ 99
    (by decide) rfl (by decide)

theorem countKey_append (k : Str) (l₁ l₂ : List Str) :
    countKey k (l₁ ++ l₂) = countKey k l₁ + countKey k l₂ := by
  induction l₁ with
  | nil => simp [countKey]
  | cons x rest ih => simp [countKey, ih]; omega

theorem below_mem {resources : List Resource} {pid : Option Nat} {r : Resource}
    (h : Below resources pid r) : r ∈ resources := by
  cases h with
  | base h => exact h
  | step _ h _ => exact h

section RankFacts

variable {resources : List Resource} {rk : Resource → Nat}

theorem below_rank
    (hrk : ∀ r q, r ∈ resources → q ∈ resources → r.parentId = some q.id → rk q < rk r) :
    ∀ {pid : Option Nat} {y : Resource}, Below resources pid y →
      ∀ m, m ∈ resources → pid = some m.id → rk m < rk y := by
  intro pid y h
  induction h with
  | base hy =>
    intro m hm hpid
    exact hrk _ m hy hm hpid
  | step hb hy hpar ih =>
    intro m hm hpid
    have h1 : rk m < rk _ := ih m hm hpid
    have h2 := hrk _ _ hy (below_mem hb) hpar
    omega

theorem below_inv {pid : Option Nat} {y : Resource}
    (h : Below resources pid y) :
    (y ∈ resources ∧ y.parentId = pid) ∨
      ∃ p, Below resources pid p ∧ y ∈ resources ∧ y.parentId = some p.id := by
  cases h with
  | base hy => exact Or.inl ⟨hy, rfl⟩
  | step hb hy hp => exact Or.inr ⟨_, hb, hy, hp⟩

theorem below_self_false
    (hrk : ∀ r q, r ∈ resources → q ∈ resources → r.parentId = some q.id → rk q < rk r)
    {x : Resource} (hx : x ∈ resources) : ¬ Below resources (some x.id) x := by
  intro h
  exact absurd (below_rank hrk h x hx rfl) (lt_irrefl _)

theorem below_sibling_false
    (hrk : ∀ r q, r ∈ resources → q ∈ resources → r.parentId = some q.id → rk q < rk r)
    {x s : Resource} (hs : s ∈ resources)
    (hpar : x.parentId = s.parentId) : ¬ Below resources (some s.id) x := by
  intro h
  rcases below_inv h with ⟨hxmem, hxp⟩ | ⟨p, hbp, hxmem, hxp⟩
  · have hself : s.parentId = some s.id := by rw [← hpar, hxp]
    exact absurd (hrk s s hs hs hself) (lt_irrefl _)
  · have hq : s.parentId = some p.id := by rw [← hpar, hxp]
    have h1 := hrk s p hs (below_mem hbp) hq
    have h2 := below_rank hrk hbp s hs rfl
    omega

theorem below_unique
    (hrk : ∀ r q, r ∈ resources → q ∈ resources → r.parentId = some q.id → rk q < rk r)
    (hids : (resources.map (fun r => r.id)).Nodup) :
    ∀ {pid : Option Nat} {y : Resource}, Below resources pid y →
      ∀ {a b : Resource}, pid = some a.id → Below resources (some b.id) y →
        a ∈ resources → b ∈ resources → a.parentId = b.parentId → a = b := by
  have hinj := List.inj_on_of_nodup_map hids
  intro pid y h
  induction h with
  | base hy =>
    intro a b hpid hb hamem hbmem hpar
    rcases below_inv hb with ⟨hymem, hyp⟩ | ⟨p, hbp, hymem, hyp⟩
    · refine hinj hamem hbmem ?_
      have h2 : some a.id = some b.id := by rw [← hpid, hyp]
      injection h2
    · have hpa : p = a := hinj (below_mem hbp) hamem (by
        have h2 : some p.id = some a.id := by rw [← hyp, hpid]
        injection h2)
      subst hpa
      exact absurd hbp (below_sibling_false hrk hbmem hpar)
  | step hb2 hymem hyp ih =>
    rename_i pid2 p r2
    intro a b hpid hb hamem hbmem hpar
    rcases below_inv hb with ⟨hymem2, hyp2⟩ | ⟨p2, hbp2, hymem2, hyp2⟩
    · have hbp : b = p := hinj hbmem (below_mem hb2) (by
        have h2 : some b.id = some p.id := by rw [← hyp2, hyp]
        injection h2)
      subst hbp
      rw [hpid] at hb2
      exact absurd hb2 (below_sibling_false hrk hamem hpar.symm)
    · have hpp : p2 = p := hinj (below_mem hbp2) (below_mem hb2) (by
        have h2 : some p2.id = some p.id := by rw [← hyp2, hyp]
        injection h2)
      subst hpp
      exact ih hpid hbp2 hamem hbmem hpar

end RankFacts

theorem below_level_mem {resources : List Resource} {pid : Option Nat} {x : Resource}
    (h : Below resources pid x) : ∃ m, m ∈ resources ∧ m.parentId = pid := by
  induction h with
  | base hy => exact ⟨_, hy, rfl⟩
  | step _ _ _ ih => exact ih

theorem below_cat {resources : List Resource} {pid : Option Nat} :
    ∀ {pid1 : Option Nat} {x : Resource}, Below resources pid1 x →
      ∀ {m : Resource}, pid1 = some m.id → Below resources pid m →
        Below resources pid x := by
  intro pid1 x h
  induction h with
  | base hy =>
    intro m hpid hm
    exact Below.step hm hy hpid
  | step hb hy hyp ih =>
    intro m hpid hm
    exact Below.step (ih hpid hm) hy hyp

theorem below_exists_level {resources : List Resource} {vis : Str → Bool}
    (hvis : ∀ r, r ∈ resources → vis r.key = true) :
    ∀ {pid0 : Option Nat} {x : Resource}, Below resources pid0 x →
      ∃ r, r ∈ resources.filter (fun r => vis r.key && parentMatches r.parentId pid0) ∧
        (r = x ∨ Below resources (some r.id) x) := by
  intro pid0 x hbel
  induction hbel with
  | base hy =>
    rename_i y
    refine ⟨y, List.mem_filter.mpr ⟨hy, ?_⟩, Or.inl rfl⟩
    simp only [Bool.and_eq_true]
    exact ⟨hvis y hy, parentMatches_iff.mpr rfl⟩
  | step hb hy hyp ihb =>
    rename_i pid1 q y
    rcases ihb with ⟨r, hrf, hPr⟩
    rcases hPr with hrq | hbel2
    · subst hrq
      refine ⟨r, hrf, Or.inr ?_⟩
      have hbase := Below.base hy
      rwa [hyp] at hbase
    · exact ⟨r, hrf, Or.inr (Below.step hbel2 hy hyp)⟩

open Classical in
theorem count_build_below {resources : List Resource} {rk : Resource → Nat}
    {vis : Str → Bool} {p : Option (Str → List Str)} {s : Str → List (Str × Str)}
    (hkeys : (resources.map (fun r => r.key)).Nodup)
    (hids : (resources.map (fun r => r.id)).Nodup)
    (hrk : ∀ r q, r ∈ resources → q ∈ resources → r.parentId = some q.id → rk q < rk r)
    (hvis : ∀ r, r ∈ resources → vis r.key = true)
    {x : Resource} (hx : x ∈ resources) :
    ∀ (fuel : Nat) (pid0 : Option Nat) (b : Nat),
      (∀ r, r ∈ resources → r.parentId = pid0 → b ≤ rk r) →
      (∀ r, r ∈ resources → rk r < b + fuel) →
      countKey x.key (menuKeysF fuel (buildMenuTree fuel resources vis p s pid0)) =
        if Below resources pid0 x then 1 else 0 := by
  have hinjk := List.inj_on_of_nodup_map hkeys
  intro fuel
  induction fuel with
  | zero =>
    intro pid0 b hmatch hfuel
    rw [if_neg]
    · simp [menuKeysF, countKey]
    · intro hbel
      rcases below_level_mem hbel with ⟨m, hm, hmp⟩
      have h1 := hmatch m hm hmp
      have h2 := hfuel m hm
      omega
  | succ n ih =>
    intro pid0 b hmatch hfuel
    rw [buildMenuTree_succ]
    have hexcl : ∀ r1 r2, r1 ∈ resources → r2 ∈ resources →
        r1.parentId = pid0 → r2.parentId = pid0 →
        (r1 = x ∨ Below resources (some r1.id) x) →
        (r2 = x ∨ Below resources (some r2.id) x) → r1 = r2 := by
      intro r1 r2 hm1 hm2 hp1 hp2 hP1 hP2
      rcases hP1 with h1 | h1
      · rcases hP2 with h2 | h2
        · rw [h1, h2]
        · subst h1
          exact absurd h2 (below_sibling_false hrk hm2 (by rw [hp1, hp2]))
      · rcases hP2 with h2 | h2
        · subst h2
          exact absurd h1 (below_sibling_false hrk hm1 (by rw [hp2, hp1]))
        · exact below_unique hrk hids h1 rfl h2 hm1 hm2 (by rw [hp1, hp2])
    have hsub : ∀ r, r ∈ resources → r.parentId = pid0 →
        countKey x.key (menuKeysF n (buildMenuTree n resources vis p s (some r.id))) =
          if Below resources (some r.id) x then 1 else 0 := by
      intro r hrmem hrpid
      apply ih (some r.id) (rk r + 1)
      · intro q hq hqp
        have := hrk q r hq hrmem hqp
        omega
      · intro q hq
        have h1 := hfuel q hq
        have h2 := hmatch r hrmem hrpid
        omega
    have inner : ∀ L : List Resource,
        (∀ r, r ∈ L → r ∈ resources ∧ r.parentId = pid0) → L.Nodup →
        countKey x.key (menuKeysF (n + 1)
          (L.map (fun r => mkMenuItem p s r (buildMenuTree n resources vis p s (some r.id))))) =
          if (∃ r, r ∈ L ∧ (r = x ∨ Below resources (some r.id) x)) then 1 else 0 := by
      intro L
      induction L with
      | nil =>
        intro _ _
        rw [if_neg (by rintro ⟨r, hr, _⟩; simp at hr)]
        simp [menuKeysF, countKey]
      | cons r L2 ihL =>
        intro hL hnodup
        have hrmem := (hL r (List.mem_cons_self r L2)).1
        have hrpid := (hL r (List.mem_cons_self r L2)).2
        rw [List.map_cons, menuKeysF_succ, countKey, countKey_append]
        have hkey1 :
            ((if (mkMenuItem p s r (buildMenuTree n resources vis p s (some r.id))).key = x.key
              then 1 else 0) : Nat) = if r = x then 1 else 0 := by
          by_cases hrx : r = x
          · subst hrx; simp [mkMenuItem]
          · rw [if_neg hrx, if_neg]
            simp only [mkMenuItem]
            intro hke
            exact hrx (hinjk hrmem hx hke)
        have hchild :
            countKey x.key (menuKeysF n
              (mkMenuItem p s r (buildMenuTree n resources vis p s (some r.id))).children) =
              if Below resources (some r.id) x then 1 else 0 := by
          simp only [mkMenuItem]
          exact hsub r hrmem hrpid
        have hrest := ihL (fun q hq => hL q (List.mem_cons_of_mem _ hq)) hnodup.of_cons
        rw [hkey1, hchild, hrest]
        by_cases hPr : r = x ∨ Below resources (some r.id) x
        · have hpos : ∃ q, q ∈ r :: L2 ∧ (q = x ∨ Below resources (some q.id) x) :=
            ⟨r, List.mem_cons_self r L2, hPr⟩
          rw [if_pos hpos]
          have hL2none : ¬ ∃ q, q ∈ L2 ∧ (q = x ∨ Below resources (some q.id) x) := by
            rintro ⟨q, hqL, hPq⟩
            have hqmem := (hL q (List.mem_cons_of_mem _ hqL)).1
            have hqpid := (hL q (List.mem_cons_of_mem _ hqL)).2
            have hrq : r = q := hexcl r q hrmem hqmem hrpid hqpid hPr hPq
            subst hrq
            exact (List.nodup_cons.mp hnodup).1 hqL
          rw [if_neg hL2none]
          rcases hPr with hrx | hbel
          · subst hrx
            rw [if_neg (below_self_false hrk hx), if_pos rfl]
          · have hrx : r ≠ x := by
              intro h
              subst h
              exact below_self_false hrk hrmem hbel
            rw [if_neg hrx, if_pos hbel]
        · push_neg at hPr
          rw [if_neg hPr.1, if_neg hPr.2]
          have hcond : (∃ q, q ∈ r :: L2 ∧ (q = x ∨ Below resources (some q.id) x)) ↔
              (∃ q, q ∈ L2 ∧ (q = x ∨ Below resources (some q.id) x)) := by
            constructor
            · rintro ⟨q, hq, hPq⟩
              rcases List.mem_cons.mp hq with h | h
              · subst h
                rcases hPq with h | h
                · exact absurd h hPr.1
                · exact absurd h hPr.2
              · exact ⟨q, h, hPq⟩
            · rintro ⟨q, hq, hPq⟩
              exact ⟨q, List.mem_cons_of_mem _ hq, hPq⟩
          by_cases hex : ∃ q, q ∈ L2 ∧ (q = x ∨ Below resources (some q.id) x)
          · rw [if_pos hex, if_pos (hcond.mpr hex)]
          · rw [if_neg hex, if_neg (fun h => hex (hcond.mp h))]
    rw [inner (resources.filter (fun r => vis r.key && parentMatches r.parentId pid0))
      (fun r hr => by
        have h1 := List.mem_filter.mp hr
        have h2 := h1.2
        simp only [Bool.and_eq_true] at h2
        exact ⟨h1.1, parentMatches_iff.mp h2.2⟩)
      (List.Nodup.filter _ (List.Nodup.of_map _ hkeys))]
    have hiff : (∃ r, r ∈ resources.filter (fun r => vis r.key && parentMatches r.parentId pid0) ∧
        (r = x ∨ Below resources (some r.id) x)) ↔ Below resources pid0 x := by
      constructor
      · rintro ⟨r, hrf, hPr⟩
        have h1 := List.mem_filter.mp hrf
        have h2 := h1.2
        simp only [Bool.and_eq_true] at h2
        have hrpid : r.parentId = pid0 := parentMatches_iff.mp h2.2
        rcases hPr with hrx | hbel
        · subst hrx
          have hbase := Below.base h1.1
          rwa [hrpid] at hbase
        · refine below_cat hbel rfl ?_
          have hbase := Below.base h1.1
          rwa [hrpid] at hbase
      · exact below_exists_level hvis
    by_cases hb2 : Below resources pid0 x
    · rw [if_pos (hiff.mpr hb2), if_pos hb2]
    · rw [if_neg (fun h => hb2 (hiff.mp h)), if_neg hb2]

theorem below_none_total {resources : List Resource} {rk : Resource → Nat}
    (hrk : ∀ r q, r ∈ resources → q ∈ resources → r.parentId = some q.id → rk q < rk r)
    (hclosed : ∀ r, r ∈ resources → ∀ pid, r.parentId = some pid →
      ∃ q, q ∈ resources ∧ q.id = pid) :
    ∀ x, x ∈ resources → Below resources none x := by
  have main : ∀ n x, x ∈ resources → rk x ≤ n → Below resources none x := by
    intro n
    induction n with
    | zero =>
      intro x hx hle
      cases hp : x.parentId with
      | none =>
        have hbase := Below.base hx
        rwa [hp] at hbase
      | some pid =>
        rcases hclosed x hx pid hp with ⟨q, hq, hqid⟩
        have hlt : rk q < rk x := hrk x q hx hq (by rw [hp, hqid])
        omega
    | succ n ih =>
      intro x hx hle
      cases hp : x.parentId with
      | none =>
        have hbase := Below.base hx
        rwa [hp] at hbase
      | some pid =>
        rcases hclosed x hx pid hp with ⟨q, hq, hqid⟩
        have hlt : rk q < rk x := hrk x q hx hq (by rw [hp, hqid])
        exact Below.step (ih q hq (by omega)) hx (by rw [hp, hqid])
  intro x hx
  exact main (rk x) x hx le_rfl

theorem occurs_shape {resources : List Resource} {vis : Str → Bool}
    {p : Option (Str → List Str)} {s : Str → List (Str × Str)} :
    ∀ (fuel : Nat) (pid : Option Nat) (it : MenuItem),
      OccursIn it (buildMenuTree fuel resources vis p s pid) →
      ∃ m r, r ∈ resources ∧
        it = mkMenuItem p s r (buildMenuTree m resources vis p s (some r.id)) := by
  intro fuel
  induction fuel with
  | zero =>
    intro pid it h
    cases h with
    | here hmem => simp [buildMenuTree] at hmem
    | inside hpar _ => simp [buildMenuTree] at hpar
  | succ n ih =>
    intro pid it h
    cases h with
    | here hmem =>
      rw [buildMenuTree_succ] at hmem
      rcases List.mem_map.mp hmem with ⟨r, hrf, hval⟩
      exact ⟨n, r, (List.mem_filter.mp hrf).1, hval.symm⟩
    | inside hpar hocc =>
      rw [buildMenuTree_succ] at hpar
      rcases List.mem_map.mp hpar with ⟨r0, hr0f, hval⟩
      subst hval
      simp only [mkMenuItem] at hocc
      exact ih (some r0.id) it hocc

theorem occurs_child_parent {resources : List Resource} {vis : Str → Bool}
    {p : Option (Str → List Str)} {s : Str → List (Str × Str)} :
    ∀ (fuel : Nat) (pid : Option Nat) (it child : MenuItem),
      OccursIn it (buildMenuTree fuel resources vis p s pid) →
      child ∈ it.children →
      ∃ r r2, r ∈ resources ∧ r2 ∈ resources ∧ it.key = r.key ∧
        child.key = r2.key ∧ r2.parentId = some r.id := by
  intro fuel pid it child hocc hchild
  rcases occurs_shape _ _ _ hocc with ⟨m, r, hr, hval⟩
  subst hval
  simp only [mkMenuItem] at hchild ⊢
  cases m with
  | zero => simp [buildMenuTree] at hchild
  | succ m2 =>
    rw [buildMenuTree_succ] at hchild
    rcases List.mem_map.mp hchild with ⟨r2, hr2f, hval2⟩
    subst hval2
    have hm2 := List.mem_filter.mp hr2f
    have hpred := hm2.2
    simp only [Bool.and_eq_true] at hpred
    exact ⟨r, r2, hr, hm2.1, rfl, rfl, parentMatches_iff.mp hpred.2⟩

/-- C3 counterexample: the unfiltered full-menu build over a single resource
whose parent reference does not resolve in the input list emits nothing, so
the claim that every resource of the input appears exactly once fails. -/
theorem full_menu_complete_cex :
    (⟨1, str "child", str "Child", none, str "p", 1, some 99⟩ : Resource) ∈
      [(⟨1, str "child", str "Child", none, str "p", 1, some 99⟩ : Resource)] ∧
    countKey (str "child")
      (fullMenuKeys [⟨1, str "child", str "Child", none, str "p", 1, some 99⟩]
        (fun _ => [])) = 0 :=
  ⟨List.mem_cons_self _ _, rfl⟩

/-- C3 amended: when every parent reference of the input list resolves inside
the list and the parent graph is acyclic (witnessed by a bounded rank
function decreasing towards parents), the unfiltered build emits every
resource of the input exactly once, and every child node in the output hangs
under the node of its resource's parent. The counterexample shows that a
resource whose parent reference does not resolve in the list is dropped, so
the resolvability proviso is necessary. -/
theorem full_menu_complete_amended (resources : List Resource)
    (screens : Str → List (Str × Str)) (rk : Resource → Nat)
    (hkeys : (resources.map (fun r => r.key)).Nodup)
    (hids : (resources.map (fun r => r.id)).Nodup)
    (hrk : ∀ r q, r ∈ resources → q ∈ resources → r.parentId = some q.id → rk q < rk r)
    (hbound : ∀ r, r ∈ resources → rk r ≤ resources.length)
    (hclosed : ∀ r, r ∈ resources → ∀ pid, r.parentId = some pid →
      ∃ q, q ∈ resources ∧ q.id = pid) :
    (∀ x, x ∈ resources → countKey x.key (fullMenuKeys resources screens) = 1) ∧
    (∀ it child, OccursIn it (getFullMenu resources screens) → child ∈ it.children →
      ∃ r r2, r ∈ resources ∧ r2 ∈ resources ∧ it.key = r.key ∧
        child.key = r2.key ∧ r2.parentId = some r.id) := by
  constructor
  · intro x hx
    have hvis : ∀ r, r ∈ resources →
        (decide (r.key ∈ resources.map (fun r => r.key))) = true := by
      intro r hr
      exact decide_eq_true (List.mem_map.mpr ⟨r, hr, rfl⟩)
    have h := @count_build_below resources rk
      (fun k => decide (k ∈ resources.map (fun r => r.key))) none screens
      hkeys hids hrk hvis x hx (resources.length + 1) none 0
      (fun r _ _ => Nat.zero_le _)
      (fun r hr => by have := hbound r hr; omega)
    rw [if_pos (below_none_total hrk hclosed x hx)] at h
    exact h
  · intro it child ho hc
    exact occurs_child_parent _ _ _ _ ho hc

/-- Witness for the amended C3 at a concrete singleton input. -/
theorem full_menu_complete_amended_witness :
    countKey (str "a")
      (fullMenuKeys [⟨1, str "a", str "A", none, str "p", 1, none⟩] (fun _ => [])) = 1 :=
  (full_menu_complete_amended [⟨1, str "a", str "A", none, str "p", 1, none⟩]
    (fun _ => []) (fun _ => 0) (by decide) (by decide)
    (by
      intro r q hr hq hpar
      fin_cases hr
      simp at hpar)
    (by
      intro r hr
      fin_cases hr
      simp)
    (by
      intro r hr pid hp
      fin_cases hr
      simp at hp)).1
    ⟨1, str "a", str "A", none, str "p", 1, none⟩ (List.mem_cons_self _ _)

theorem splitCommaStr_append_comma {x : Str} (hx : ',' ∉ x) (s : Str) :
    splitCommaStr (x ++ ',' :: s) = x :: splitCommaStr s := by
  induction x with
  | nil => simp [splitCommaStr]
  | cons c rest ih =>
    have hc : ¬ c = ',' := fun h => hx (h ▸ List.mem_cons_self c rest)
    have hrest : ',' ∉ rest := fun h => hx (List.mem_cons_of_mem _ h)
    rw [List.cons_append]
    show (let ws := splitCommaStr (rest ++ ',' :: s);
      if c = ',' then [] :: ws else (c :: ws.headD []) :: ws.tail) = _
    rw [ih hrest]
    simp [hc]

theorem splitCommaStr_commaFree {x : Str} (hx : ',' ∉ x) :
    splitCommaStr x = [x] := by
  induction x with
  | nil => simp [splitCommaStr]
  | cons c rest ih =>
    have hc : ¬ c = ',' := fun h => hx (h ▸ List.mem_cons_self c rest)
    have hrest : ',' ∉ rest := fun h => hx (List.mem_cons_of_mem _ h)
    show (let ws := splitCommaStr rest;
      if c = ',' then [] :: ws else (c :: ws.headD []) :: ws.tail) = _
    rw [ih hrest]
    simp [hc]

theorem splitCommaStr_joinComma : ∀ (L : List Str), L ≠ [] →
    (∀ x, x ∈ L → ',' ∉ x) → splitCommaStr (joinComma L) = L := by
  intro L
  induction L with
  | nil => intro h; exact absurd rfl h
  | cons x xs ih =>
    intro _ hcf
    cases xs with
    | nil => exact splitCommaStr_commaFree (hcf x (List.mem_cons_self _ _))
    | cons y ys =>
      have hjoin : joinComma (x :: y :: ys) = x ++ ',' :: joinComma (y :: ys) := rfl
      rw [hjoin, splitCommaStr_append_comma (hcf x (List.mem_cons_self _ _))]
      rw [ih (by simp) (fun z hz => hcf z (List.mem_cons_of_mem _ hz))]

theorem joinComma_injective {L L2 : List Str} (hL : L ≠ []) (hL2 : L2 ≠ [])
    (hcf : ∀ x, x ∈ L → ',' ∉ x) (hcf2 : ∀ x, x ∈ L2 → ',' ∉ x)
    (h : joinComma L = joinComma L2) : L = L2 := by
  have h1 := splitCommaStr_joinComma L hL hcf
  have h2 := splitCommaStr_joinComma L2 hL2 hcf2
  rw [← h1, ← h2, h]

theorem countKey_perm (k : Str) : ∀ {l l2 : List Str}, l.Perm l2 →
    countKey k l = countKey k l2 := by
  intro l l2 h
  induction h with
  | nil => rfl
  | cons x _ ih => simp only [countKey] at ih ⊢; omega
  | swap x y l => simp only [countKey]; split <;> split <;> omega
  | trans _ _ ih₁ ih₂ => exact ih₁.trans ih₂

theorem sortStrings_perm (l : List Str) : (sortStrings l).Perm l :=
  List.perm_insertionSort _ l

theorem sortStrings_eq_of_perm {l l2 : List Str} (h : l.Perm l2) :
    sortStrings l = sortStrings l2 :=
  List.eq_of_perm_of_sorted
    ((List.perm_insertionSort _ l).trans (h.trans (List.perm_insertionSort _ l2).symm))
    (List.sorted_insertionSort _ l)
    (List.sorted_insertionSort _ l2)

/-- C4 counterexample: the two permission lists differ in exactly one
element (",a" was replaced by the different string "a,"), yet they share the
hash pre-image ",a,,a," after sorting and comma-joining, so hashPermissions
maps them to the same digest. -/
theorem hashPermissions_replacement_cex :
    hashPermissions [str ",a,", str ",a"] = hashPermissions [str ",a,", str "a,"] ∧
    str ",a" ≠ str "a," := by
  constructor
  · decide
  · decide

/-- C4 amended: hashPermissions is invariant under permutations of its
input, and replacing a single element by a different string changes the hash
provided the permission strings are comma-free (the counterexample shows the
restriction is needed when permissions may contain commas). -/
theorem hashPermissions_amended :
    (∀ l l2 : List Str, l.Perm l2 → hashPermissions l = hashPermissions l2) ∧
    (∀ (A B : List Str) (x y : Str), x ≠ y →
      (∀ s2, s2 ∈ A ++ x :: B → ',' ∉ s2) → (',' ∉ y) →
      hashPermissions (A ++ x :: B) ≠ hashPermissions (A ++ y :: B)) := by
  constructor
  · intro l l2 h
    unfold hashPermissions
    rw [sortStrings_eq_of_perm h]
  · intro A B x y hxy hcf hy heq
    unfold hashPermissions at heq
    have hperm1 := sortStrings_perm (A ++ x :: B)
    have hperm2 := sortStrings_perm (A ++ y :: B)
    have hne1 : sortStrings (A ++ x :: B) ≠ [] := by
      intro h
      have := hperm1.length_eq
      rw [h] at this
      simp only [List.length_nil, List.length_append, List.length_cons] at this
      omega
    have hne2 : sortStrings (A ++ y :: B) ≠ [] := by
      intro h
      have := hperm2.length_eq
      rw [h] at this
      simp only [List.length_nil, List.length_append, List.length_cons] at this
      omega
    have hcf2 : ∀ s2, s2 ∈ A ++ y :: B → ',' ∉ s2 := by
      intro s2 hs2
      rcases List.mem_append.mp hs2 with h | h
      · exact hcf s2 (List.mem_append_left _ h)
      · rcases List.mem_cons.mp h with h | h
        · exact h ▸ hy
        · exact hcf s2 (List.mem_append_right _ (List.mem_cons_of_mem _ h))
    have hsorted_eq : sortStrings (A ++ x :: B) = sortStrings (A ++ y :: B) :=
      joinComma_injective hne1 hne2
        (fun z hz => hcf z (hperm1.subset hz))
        (fun z hz => hcf2 z (hperm2.subset hz)) heq
    have hperm : (A ++ x :: B).Perm (A ++ y :: B) :=
      hperm1.symm.trans (hsorted_eq ▸ hperm2)
    have hcount := countKey_perm x hperm
    rw [countKey_append, countKey_append] at hcount
    simp only [countKey] at hcount
    have hyx : (if y = x then (1 : Nat) else 0) = 0 := if_neg (fun h => hxy h.symm)
    rw [hyx] at hcount
    simp only [if_true] at hcount
    omega

/-- Witness for the amended C4: order independence on a two-element list,
and a single-element replacement changing the hash on comma-free input. -/
theorem hashPermissions_amended_witness :
    hashPermissions [str "b:read", str "a:read"] =
      hashPermissions [str "a:read", str "b:read"] ∧
    hashPermissions [str "a:read"] ≠ hashPermissions [str "b:read"] :=
  ⟨hashPermissions_amended.1 _ _ (by decide),
   hashPermissions_amended.2 [] [] (str "a:read") (str "b:read")
     (by decide) (by decide) (by decide)⟩

theorem digitChar_toNat {n : Nat} (h : n < 10) : (digitChar n).toNat = 48 + n := by
  interval_cases n <;> rfl

theorem digitChar_ne_colon {n : Nat} (h : n < 10) : digitChar n ≠ ':' := by
  interval_cases n <;> decide

theorem strToNatAux_append (s₁ s₂ : Str) (acc : Nat) :
    strToNatAux (s₁ ++ s₂) acc = strToNatAux s₂ (strToNatAux s₁ acc) := by
  induction s₁ generalizing acc with
  | nil => rfl
  | cons c rest ih => exact ih (acc * 10 + (c.toNat - 48))

theorem strToNatAux_natToStrAux :
    ∀ (fuel n acc : Nat), n < 10 ^ fuel →
      strToNatAux (natToStrAux fuel n) acc = acc * 10 ^ (natToStrAux fuel n).length + n := by
  intro fuel
  induction fuel with
  | zero =>
    intro n acc h
    simp only [pow_zero, Nat.lt_one_iff] at h
    subst h
    simp [natToStrAux, strToNatAux]
  | succ f ih =>
    intro n acc h
    by_cases h10 : n < 10
    · simp only [natToStrAux, if_pos h10, strToNatAux, List.length_singleton]
      rw [digitChar_toNat h10]
      omega
    · simp only [natToStrAux, if_neg h10]
      rw [strToNatAux_append]
      have hdiv : n / 10 < 10 ^ f := by
        rw [pow_succ] at h
        omega
      rw [ih (n / 10) acc hdiv]
      simp only [strToNatAux, List.length_append, List.length_singleton]
      rw [digitChar_toNat (Nat.mod_lt n (by omega))]
      rw [pow_succ, ← mul_assoc]
      generalize acc * 10 ^ (natToStrAux f (n / 10)).length = B
      omega

theorem natToStr_injective {m n : Nat} (h : natToStr m = natToStr n) : m = n := by
  have hm : m < 10 ^ (m + 1) := by
    calc m < 10 ^ m := Nat.lt_pow_self (by omega) m
    _ ≤ 10 ^ (m + 1) := Nat.pow_le_pow_right (by omega) (by omega)
  have hn : n < 10 ^ (n + 1) := by
    calc n < 10 ^ n := Nat.lt_pow_self (by omega) n
    _ ≤ 10 ^ (n + 1) := Nat.pow_le_pow_right (by omega) (by omega)
  have h1 := strToNatAux_natToStrAux (m + 1) m 0 hm
  have h2 := strToNatAux_natToStrAux (n + 1) n 0 hn
  unfold natToStr at h
  rw [h] at h1
  rw [h1] at h2
  omega

theorem natToStrAux_colon_free :
    ∀ (fuel n : Nat) (c : Char), c ∈ natToStrAux fuel n → c ≠ ':' := by
  intro fuel
  induction fuel with
  | zero => intro n c h; simp [natToStrAux] at h
  | succ f ih =>
    intro n c h
    by_cases h10 : n < 10
    · simp only [natToStrAux, if_pos h10] at h
      rcases List.mem_singleton.mp h with h
      exact h ▸ digitChar_ne_colon h10
    · simp only [natToStrAux, if_neg h10] at h
      rcases List.mem_append.mp h with h | h
      · exact ih (n / 10) c h
      · rcases List.mem_singleton.mp h with h
        exact h ▸ digitChar_ne_colon (Nat.mod_lt n (by omega))

theorem colon_split_injective :
    ∀ (u u2 t t2 : Str), (∀ c, c ∈ u → c ≠ ':') → (∀ c, c ∈ u2 → c ≠ ':') →
      u ++ ':' :: t = u2 ++ ':' :: t2 → u = u2 ∧ t = t2 := by
  intro u
  induction u with
  | nil =>
    intro u2 t t2 _ hcf2 h
    cases u2 with
    | nil => simpa using h
    | cons c2 r2 =>
      simp only [List.nil_append, List.cons_append, List.cons.injEq] at h
      exact absurd h.1.symm (hcf2 c2 (List.mem_cons_self _ _))
  | cons c r ih =>
    intro u2 t t2 hcf hcf2 h
    cases u2 with
    | nil =>
      simp only [List.cons_append, List.nil_append, List.cons.injEq] at h
      exact absurd h.1 (hcf c (List.mem_cons_self _ _))
    | cons c2 r2 =>
      simp only [List.cons_append, List.cons.injEq] at h
      rcases ih r2 t t2 (fun d hd => hcf d (List.mem_cons_of_mem _ hd))
        (fun d hd => hcf2 d (List.mem_cons_of_mem _ hd)) h.2 with ⟨h1, h2⟩
      exact ⟨by rw [h.1, h1], h2⟩

theorem hashScreen_injective {v v2 : Nat} {t t2 : Str}
    (h : hashScreen v t = hashScreen v2 t2) : v = v2 ∧ t = t2 := by
  unfold hashScreen at h
  rcases colon_split_injective (natToStr v) (natToStr v2) t t2
    (natToStrAux_colon_free _ v) (natToStrAux_colon_free _ v2) h with ⟨h1, h2⟩
  exact ⟨natToStr_injective h1, h2⟩

theorem mem_goInsert {α : Type} {m : List (Str × α)} {k : Str} {v : α} {kv : Str × α}
    (h : kv ∈ goInsert m k v) : kv ∈ m ∨ kv = (k, v) := by
  unfold goInsert at h
  split at h
  · rcases List.mem_map.mp h with ⟨kv2, hkv2, hval⟩
    by_cases he : kv2.1 = k
    · rw [if_pos he] at hval
      exact Or.inr hval.symm
    · rw [if_neg he] at hval
      exact Or.inl (hval ▸ hkv2)
  · rcases List.mem_append.mp h with h | h
    · exact Or.inl h
    · exact Or.inr (List.mem_singleton.mp h)

theorem screens_fold_hash_inv (resolve : Str → Except DBErr CombinedScreen) :
    ∀ (instances : List ScreenInstance)
      (acc : List (Str × ScreenBundle) × List (Str × Str)),
      (∀ kv, kv ∈ acc.2 → ∃ k2 cs, kv.1 = str "screen:" ++ k2 ∧
          resolve k2 = .ok cs ∧ kv.2 = hashScreen cs.version cs.updatedAt) →
      ∀ kv, kv ∈ (instances.foldl (screensStep resolve) acc).2 →
        ∃ k2 cs, kv.1 = str "screen:" ++ k2 ∧ resolve k2 = .ok cs ∧
          kv.2 = hashScreen cs.version cs.updatedAt := by
  intro instances
  induction instances with
  | nil =>
    intro acc hacc kv h
    exact hacc kv h
  | cons inst rest ih =>
    intro acc hacc kv h
    rw [List.foldl_cons] at h
    apply ih _ _ kv h
    intro kv2 hkv2
    unfold screensStep at hkv2
    rcases hres : resolve inst.screenKey with e | r
    · rw [hres] at hkv2
      exact hacc kv2 hkv2
    · simp only [hres] at hkv2
      rcases mem_goInsert hkv2 with h2 | h2
      · exact hacc kv2 h2
      · exact ⟨inst.screenKey, r, by rw [h2], hres, by rw [h2]⟩

theorem screen_key_head (k : Str) : (str "screen:" ++ k).head? = some 's' := rfl

/-- C5: in the assembled bundle, every hash stored under a screen-prefixed
key is the hashScreen digest of the resolved screen; resolution combines the
template version with the instance updatedAt, so two resolutions agreeing on
those two fields hash identically whatever their other fields are; and the
hash pre-image determines the pair (version, updatedAt) exactly, so the hash
changes whenever either field changes. -/
theorem screen_hash_depends_exactly_on_version_updatedAt
    (env : SyncEnv) (ctx : UserContext) (buckets : List Str) :
    (∀ k hv, (str "screen:" ++ k, hv) ∈ (getFullBundle env ctx buckets).hashes →
      ∃ cs, env.resolve k = .ok cs ∧ hv = hashScreen cs.version cs.updatedAt) ∧
    (∀ (i i2 : ScreenInstance) (tp tp2 : ScreenTemplate),
      tp.version = tp2.version → i.updatedAt = i2.updatedAt →
      hashScreen (combineScreen i tp).version (combineScreen i tp).updatedAt =
        hashScreen (combineScreen i2 tp2).version (combineScreen i2 tp2).updatedAt) ∧
    (∀ (v v2 : Nat) (u u2 : Str), hashScreen v u = hashScreen v2 u2 ↔ (v = v2 ∧ u = u2)) := by
  refine ⟨?_, ?_, ?_⟩
  · intro k hv h
    simp only [getFullBundle] at h
    rcases List.mem_append.mp h with h | h
    rotate_left
    · -- screens bucket
      split at h
      · rcases hres : env.instancesResult with e | instances
        · rw [hres] at h
          simp at h
        · rw [hres] at h
          simp only at h
          rcases screens_fold_hash_inv env.resolve instances ([], [])
              (by intro kv hkv; simp at hkv) _ h with ⟨k2, cs, hk2, hres2, hval⟩
          have hkk : k = k2 := by
            have h3 : str "screen:" ++ k = str "screen:" ++ k2 := hk2
            exact List.append_cancel_left h3
          subst hkk
          exact ⟨cs, hres2, hval⟩
      · simp at h
    · rcases List.mem_append.mp h with h | h
      rotate_left
      · -- available_contexts bucket
        exfalso
        split at h
        · split at h
          · rcases List.mem_singleton.mp h with h2
            have h3 := congrArg (fun q => q.1.head?) h2
            simp only [screen_key_head] at h3
            exact absurd h3 (by decide)
          · rcases List.mem_singleton.mp h with h2
            have h3 := congrArg (fun q => q.1.head?) h2
            simp only [screen_key_head] at h3
            exact absurd h3 (by decide)
        · simp at h
      · rcases List.mem_append.mp h with h | h
        · -- menu bucket
          exfalso
          split at h
          · split at h
            · rcases List.mem_singleton.mp h with h2
              have h3 := congrArg (fun q => q.1.head?) h2
              simp only [screen_key_head] at h3
              exact absurd h3 (by decide)
            · rcases List.mem_singleton.mp h with h2
              have h3 := congrArg (fun q => q.1.head?) h2
              simp only [screen_key_head] at h3
              exact absurd h3 (by decide)
          · simp at h
        · -- permissions bucket
          exfalso
          split at h
          · rcases List.mem_singleton.mp h with h2
            have h3 := congrArg (fun q => q.1.head?) h2
            simp only [screen_key_head] at h3
            exact absurd h3 (by decide)
          · simp at h
  · intro i i2 tp tp2 hv hu
    simp only [combineScreen]
    rw [hv, hu]
  · intro v v2 u u2
    constructor
    · exact hashScreen_injective
    · rintro ⟨h1, h2⟩
      rw [h1, h2]

theorem deltaPartition_unchanged_iff (client : List (Str × Str)) (bundle : SyncBundle) :
    ∀ (pairs : List (Str × Str)) (k : Str),
      k ∈ (deltaPartition client bundle pairs).2 ↔
        ∃ h, (k, h) ∈ pairs ∧ lookupStr client k = some h := by
  intro pairs
  induction pairs with
  | nil => intro k; simp [deltaPartition]
  | cons kv rest ih =>
    intro k
    rcases kv with ⟨k0, h0⟩
    unfold deltaPartition
    rcases hl : lookupStr client k0 with _ | ch
    · simp only [hl]
      rw [ih k]
      constructor
      · rintro ⟨h, hmem, hlk⟩
        exact ⟨h, List.mem_cons_of_mem _ hmem, hlk⟩
      · rintro ⟨h, hmem, hlk⟩
        rcases List.mem_cons.mp hmem with he | hmem
        · rcases Prod.mk.injEq .. ▸ he with ⟨hk, hh⟩
          subst hk
          rw [hlk] at hl
          cases hl
        · exact ⟨h, hmem, hlk⟩
    · by_cases hch : ch = h0
      · subst hch
        simp only [hl, if_pos rfl]
        constructor
        · intro hmem
          rcases List.mem_cons.mp hmem with he | hmem
          · subst he
            exact ⟨ch, List.mem_cons_self _ _, hl⟩
          · rcases (ih k).mp hmem with ⟨h, hmem2, hlk⟩
            exact ⟨h, List.mem_cons_of_mem _ hmem2, hlk⟩
        · rintro ⟨h, hmem, hlk⟩
          rcases List.mem_cons.mp hmem with he | hmem
          · rcases Prod.mk.injEq .. ▸ he with ⟨hk, hh⟩
            subst hk
            exact List.mem_cons_self _ _
          · exact List.mem_cons_of_mem _ ((ih k).mpr ⟨h, hmem, hlk⟩)
      · simp only [hl, if_neg hch]
        rw [ih k]
        constructor
        · rintro ⟨h, hmem, hlk⟩
          exact ⟨h, List.mem_cons_of_mem _ hmem, hlk⟩
        · rintro ⟨h, hmem, hlk⟩
          rcases List.mem_cons.mp hmem with he | hmem
          · rcases Prod.mk.injEq .. ▸ he with ⟨hk, hh⟩
            subst hk
            subst hh
            rw [hlk] at hl
            injection hl with hl2
            exact absurd hl2.symm hch
          · exact ⟨h, hmem, hlk⟩

theorem deltaPartition_changed_sound (client : List (Str × Str)) (bundle : SyncBundle) :
    ∀ (pairs : List (Str × Str)) (k : Str) (bd : BucketData),
      (k, bd) ∈ (deltaPartition client bundle pairs).1 →
        (k, bd.hash) ∈ pairs ∧ bd.data = extractBucketData bundle k ∧
          lookupStr client k ≠ some bd.hash := by
  intro pairs
  induction pairs with
  | nil => intro k bd h; simp [deltaPartition] at h
  | cons kv rest ih =>
    intro k bd h
    rcases kv with ⟨k0, h0⟩
    unfold deltaPartition at h
    rcases hl : lookupStr client k0 with _ | ch
    · simp only [hl] at h
      rcases List.mem_cons.mp h with he | hmem
      · rcases Prod.mk.injEq .. ▸ he with ⟨hk, hbd⟩
        subst hk
        subst hbd
        exact ⟨List.mem_cons_self _ _, rfl, by rw [hl]; intro hc; cases hc⟩
      · rcases ih k bd hmem with ⟨h1, h2, h3⟩
        exact ⟨List.mem_cons_of_mem _ h1, h2, h3⟩
    · by_cases hch : ch = h0
      · subst hch
        simp only [hl, if_pos rfl] at h
        rcases ih k bd h with ⟨h1, h2, h3⟩
        exact ⟨List.mem_cons_of_mem _ h1, h2, h3⟩
      · simp only [hl, if_neg hch] at h
        rcases List.mem_cons.mp h with he | hmem
        · rcases Prod.mk.injEq .. ▸ he with ⟨hk, hbd⟩
          subst hk
          subst hbd
          refine ⟨List.mem_cons_self _ _, rfl, ?_⟩
          rw [hl]
          intro hc
          injection hc with hc2
          exact hch hc2
        · rcases ih k bd hmem with ⟨h1, h2, h3⟩
          exact ⟨List.mem_cons_of_mem _ h1, h2, h3⟩

theorem deltaPartition_changed_complete (client : List (Str × Str)) (bundle : SyncBundle) :
    ∀ (pairs : List (Str × Str)) (k : Str) (h : Str),
      (k, h) ∈ pairs → lookupStr client k ≠ some h →
        ∃ bd, (k, bd) ∈ (deltaPartition client bundle pairs).1 := by
  intro pairs
  induction pairs with
  | nil => intro k h hmem; simp at hmem
  | cons kv rest ih =>
    intro k h hmem hne
    rcases kv with ⟨k0, h0⟩
    unfold deltaPartition
    rcases List.mem_cons.mp hmem with he | hmem
    · rcases Prod.mk.injEq .. ▸ he with ⟨hk, hh⟩
      subst hk
      subst hh
      rcases hl : lookupStr client k with _ | ch
      · simp only [hl]
        exact ⟨⟨extractBucketData bundle k, h⟩, List.mem_cons_self _ _⟩
      · have hch : ¬ ch = h := by
          intro hc
          subst hc
          exact hne hl
        simp only [hl, if_neg hch]
        exact ⟨⟨extractBucketData bundle k, h⟩, List.mem_cons_self _ _⟩
    · rcases ih k h hmem hne with ⟨bd, hbd⟩
      rcases hl : lookupStr client k0 with _ | ch
      · simp only [hl]
        exact ⟨bd, List.mem_cons_of_mem _ hbd⟩
      · by_cases hch : ch = h0
        · subst hch
          simp only [hl, if_pos rfl]
          exact ⟨bd, hbd⟩
        · simp only [hl, if_neg hch]
          exact ⟨bd, List.mem_cons_of_mem _ hbd⟩

theorem lookupStr_self {pairs : List (Str × Str)} (hnd : (pairs.map (fun kv => kv.1)).Nodup) :
    ∀ {k v : Str}, (k, v) ∈ pairs → lookupStr pairs k = some v := by
  induction pairs with
  | nil => intro k v h; simp at h
  | cons kv rest ih =>
    intro k v h
    rcases kv with ⟨k0, v0⟩
    rcases List.mem_cons.mp h with he | hmem
    · rcases Prod.mk.injEq .. ▸ he with ⟨hk, hv⟩
      subst hk
      subst hv
      simp [lookupStr, List.find?]
    · have hk0 : ¬ k0 = k := by
        intro hc
        subst hc
        have : k0 ∈ rest.map (fun kv => kv.1) := List.mem_map.mpr ⟨(k0, v), hmem, rfl⟩
        exact (List.nodup_cons.mp (by simpa using hnd)).1 this
      have hnd2 : (rest.map (fun kv => kv.1)).Nodup := (List.nodup_cons.mp (by simpa using hnd)).2
      unfold lookupStr at ih ⊢
      simp only [List.find?]
      have hdk : (decide (k0 = k)) = false := decide_eq_false hk0
      rw [hdk]
      exact ih hnd2 hmem

theorem deltaPartition_self (bundle : SyncBundle) (client : List (Str × Str)) :
    ∀ (pairs : List (Str × Str)),
      (∀ kv, kv ∈ pairs → lookupStr client kv.1 = some kv.2) →
      deltaPartition client bundle pairs = ([], pairs.map (fun kv => kv.1)) := by
  intro pairs
  induction pairs with
  | nil => intro _; rfl
  | cons kv rest ih =>
    intro hall
    rcases kv with ⟨k0, h0⟩
    unfold deltaPartition
    have hl : lookupStr client k0 = some h0 := hall (k0, h0) (List.mem_cons_self _ _)
    simp only [hl, if_pos rfl, if_true]
    rw [ih (fun kv2 hkv2 => hall kv2 (List.mem_cons_of_mem _ hkv2))]
    simp

theorem deltaPartition_empty_client (bundle : SyncBundle) :
    ∀ (pairs : List (Str × Str)),
      deltaPartition [] bundle pairs =
        (pairs.map (fun kv => (kv.1, ⟨extractBucketData bundle kv.1, kv.2⟩)), []) := by
  intro pairs
  induction pairs with
  | nil => rfl
  | cons kv rest ih =>
    rcases kv with ⟨k0, h0⟩
    unfold deltaPartition
    have hl : lookupStr [] k0 = (none : Option Str) := rfl
    simp only [hl]
    rw [ih]
    simp

theorem goInsert_keys_nodup {α : Type} {m : List (Str × α)} {k : Str} {v : α}
    (h : (m.map (fun kv => kv.1)).Nodup) :
    ((goInsert m k v).map (fun kv => kv.1)).Nodup := by
  unfold goInsert
  split
  · have heq : (m.map (fun kv => if kv.1 = k then (k, v) else kv)).map (fun kv => kv.1) =
        m.map (fun kv => kv.1) := by
      rw [List.map_map]
      apply List.map_congr_left
      intro kv _
      by_cases he : kv.1 = k
      · simp [he]
      · simp [he]
    rw [heq]
    exact h
  · rename_i hany
    rw [List.map_append]
    apply List.Nodup.append h (by simp)
    intro a ha hb
    simp only [List.map_cons, List.map_nil, List.mem_singleton] at hb
    subst hb
    rcases List.mem_map.mp ha with ⟨kv, hkv, hfst⟩
    exact hany (List.any_eq_true.mpr ⟨kv, hkv, decide_eq_true hfst⟩)

theorem screens_fold_keys_nodup (resolve : Str → Except DBErr CombinedScreen) :
    ∀ (instances : List ScreenInstance)
      (acc : List (Str × ScreenBundle) × List (Str × Str)),
      ((acc.2.map (fun kv => kv.1)).Nodup) →
      (((instances.foldl (screensStep resolve) acc).2).map (fun kv => kv.1)).Nodup := by
  intro instances
  induction instances with
  | nil => intro acc hacc; exact hacc
  | cons inst rest ih =>
    intro acc hacc
    rw [List.foldl_cons]
    apply ih
    unfold screensStep
    rcases hres : resolve inst.screenKey with e | r
    · exact hacc
    · exact goInsert_keys_nodup hacc

theorem nodup_append_four {A B C D : List (Str × Str)}
    (hA : ∀ kv, kv ∈ A → kv.1 = str "menu")
    (hB : ∀ kv, kv ∈ B → kv.1 = str "permissions")
    (hC : ∀ kv, kv ∈ C → kv.1 = str "available_contexts")
    (hD : ∀ kv, kv ∈ D → (kv.1).head? = some 's')
    (hAn : (A.map (fun kv => kv.1)).Nodup) (hBn : (B.map (fun kv => kv.1)).Nodup)
    (hCn : (C.map (fun kv => kv.1)).Nodup) (hDn : (D.map (fun kv => kv.1)).Nodup) :
    (((A ++ B ++ C ++ D).map (fun kv => kv.1)).Nodup) := by
  have key : ∀ (X Y : List (Str × Str)) (px py : Str → Prop),
      (∀ kv, kv ∈ X → px kv.1) → (∀ kv, kv ∈ Y → py kv.1) →
      (∀ a, px a → py a → False) →
      (X.map (fun kv => kv.1)).Disjoint (Y.map (fun kv => kv.1)) := by
    intro X Y px py hX hY hcontra a haX haY
    rcases List.mem_map.mp haX with ⟨kv, hkv, hfst⟩
    rcases List.mem_map.mp haY with ⟨kv2, hkv2, hfst2⟩
    exact hcontra a (hfst ▸ hX kv hkv) (hfst2 ▸ hY kv2 hkv2)
  have dAB := key A B (fun x => x = str "menu") (fun x => x = str "permissions") hA hB
    (by rintro a rfl h; exact absurd h (by decide))
  have dAC := key A C (fun x => x = str "menu") (fun x => x = str "available_contexts") hA hC
    (by rintro a rfl h; exact absurd h (by decide))
  have dBC := key B C (fun x => x = str "permissions") (fun x => x = str "available_contexts")
    hB hC (by rintro a rfl h; exact absurd h (by decide))
  have dAD := key A D (fun x => x = str "menu") (fun x => x.head? = some 's') hA hD
    (by rintro a rfl h; exact absurd h (by decide))
  have dBD := key B D (fun x => x = str "permissions") (fun x => x.head? = some 's') hB hD
    (by rintro a rfl h; exact absurd h (by decide))
  have dCD := key C D (fun x => x = str "available_contexts") (fun x => x.head? = some 's')
    hC hD (by rintro a rfl h; exact absurd h (by decide))
  rw [List.map_append, List.map_append, List.map_append]
  apply List.Nodup.append
  · apply List.Nodup.append
    · exact List.Nodup.append hAn hBn dAB
    · exact hCn
    · intro a ha hb
      rcases List.mem_append.mp ha with ha | ha
      · exact dAC ha hb
      · exact dBC ha hb
  · exact hDn
  · intro a ha hb
    rcases List.mem_append.mp ha with ha | ha
    · rcases List.mem_append.mp ha with ha | ha
      · exact dAD ha hb
      · exact dBD ha hb
    · exact dCD ha hb

theorem bundle_hashes_keys_nodup (env : SyncEnv) (ctx : UserContext) (buckets : List Str) :
    (((getFullBundle env ctx buckets).hashes).map (fun kv => kv.1)).Nodup := by
  simp only [getFullBundle]
  apply nodup_append_four
  · intro kv h
    split at h
    · split at h
      · rcases List.mem_singleton.mp h with rfl; rfl
      · rcases List.mem_singleton.mp h with rfl; rfl
    · simp at h
  · intro kv h
    split at h
    · rcases List.mem_singleton.mp h with rfl; rfl
    · simp at h
  · intro kv h
    split at h
    · rcases hres : env.contextsResult with e | cs
      · rw [hres] at h
        rcases List.mem_singleton.mp h with rfl; rfl
      · rw [hres] at h
        simp only at h
        rcases List.mem_singleton.mp h with rfl; rfl
    · simp at h
  · intro kv h
    split at h
    · rcases hres : env.instancesResult with e | instances
      · rw [hres] at h
        simp at h
      · rw [hres] at h
        simp only at h
        rcases screens_fold_hash_inv env.resolve instances ([], [])
            (by intro kv2 hkv2; simp at hkv2) _ h with ⟨k2, cs, hk2, _, _⟩
        rw [hk2]
        rfl
    · simp at h
  · split
    · split
      · simp
      · simp
    · simp
  · split
    · simp
    · simp
  · split
    · rcases env.contextsResult with e | cs
      · simp
      · simp
    · simp
  · split
    · rcases env.instancesResult with e | instances
      · simp
      · exact screens_fold_keys_nodup env.resolve instances ([], []) (by simp)
    · simp

theorem mem_sortStrings {k : Str} {l : List Str} : k ∈ sortStrings l ↔ k ∈ l :=
  (sortStrings_perm l).mem_iff

/-- C6: GetDeltaSync partitions the server bundle hash keys against the
client hash map: a key is unchanged exactly when the client holds the same
hash for it; every other server key is changed and carries its extracted
payload together with the new hash; unchanged is sorted; client keys that
are not server keys are ignored because the partition ranges over server
keys only; a client map equal to the fresh hashes yields no changed bucket
and every key unchanged (sorted); an empty client map yields every bucket
changed and nothing unchanged. -/
theorem delta_sync_partitions (env : SyncEnv) (ctx : UserContext)
    (client : List (Str × Str)) :
    (∀ k, k ∈ (getDeltaSync env ctx client).unchanged ↔
      ∃ h, (k, h) ∈ (getFullBundle env ctx []).hashes ∧ lookupStr client k = some h) ∧
    (∀ k bd, (k, bd) ∈ (getDeltaSync env ctx client).changed →
      (k, bd.hash) ∈ (getFullBundle env ctx []).hashes ∧
      bd.data = extractBucketData (getFullBundle env ctx []) k ∧
      lookupStr client k ≠ some bd.hash) ∧
    (∀ k h, (k, h) ∈ (getFullBundle env ctx []).hashes →
      lookupStr client k ≠ some h →
      ∃ bd, (k, bd) ∈ (getDeltaSync env ctx client).changed) ∧
    ((getDeltaSync env ctx client).unchanged.Sorted (· ≤ ·)) ∧
    ((getDeltaSync env ctx ((getFullBundle env ctx []).hashes)).changed = [] ∧
      (getDeltaSync env ctx ((getFullBundle env ctx []).hashes)).unchanged =
        sortStrings (((getFullBundle env ctx []).hashes).map (fun kv => kv.1))) ∧
    ((getDeltaSync env ctx []).unchanged = [] ∧
      ((getDeltaSync env ctx []).changed).map (fun kv => kv.1) =
        ((getFullBundle env ctx []).hashes).map (fun kv => kv.1)) := by
  refine ⟨?_, ?_, ?_, ?_, ?_, ?_⟩
  · intro k
    simp only [getDeltaSync]
    rw [mem_sortStrings]
    exact deltaPartition_unchanged_iff client (getFullBundle env ctx []) _ k
  · intro k bd h
    exact deltaPartition_changed_sound client (getFullBundle env ctx []) _ k bd h
  · intro k h hmem hne
    exact deltaPartition_changed_complete client (getFullBundle env ctx []) _ k h hmem hne
  · simp only [getDeltaSync]
    exact List.sorted_insertionSort _ _
  · have hall : ∀ kv, kv ∈ (getFullBundle env ctx []).hashes →
        lookupStr ((getFullBundle env ctx []).hashes) kv.1 = some kv.2 := by
      intro kv hkv
      have h2 : (kv.1, kv.2) ∈ (getFullBundle env ctx []).hashes := by
        rw [Prod.mk.eta]
        exact hkv
      exact lookupStr_self (bundle_hashes_keys_nodup env ctx []) h2
    simp only [getDeltaSync]
    rw [deltaPartition_self (getFullBundle env ctx []) _ _ hall]
    exact ⟨rfl, rfl⟩
  · simp only [getDeltaSync]
    rw [deltaPartition_empty_client (getFullBundle env ctx [])]
    refine ⟨rfl, ?_⟩
    rw [List.map_map]
    rfl

/-- Witness for C5 at a concrete environment with one resolvable screen. -/
theorem screen_hash_depends_witness :
    ∃ cs,
      (⟨false, [], fun _ => [], .ok [],
        .ok [⟨1, str "home", 2, str "Home", none, str "slot", str "system",
          none, none, str "2024-01-01T00:00:00Z"⟩],
        fun k =>
          if k = str "home" then
            .ok (combineScreen
              ⟨1, str "home", 2, str "Home", none, str "slot", str "system",
                none, none, str "2024-01-01T00:00:00Z"⟩
              ⟨2, str "pat", str "T", none, 3, str "def", str "ts"⟩)
          else .error .dbError⟩ : SyncEnv).resolve (str "home") = .ok cs ∧
      hashScreen 3 (str "2024-01-01T00:00:00Z") = hashScreen cs.version cs.updatedAt :=
  (screen_hash_depends_exactly_on_version_updatedAt
    ⟨false, [], fun _ => [], .ok [],
      .ok [⟨1, str "home", 2, str "Home", none, str "slot", str "system",
        none, none, str "2024-01-01T00:00:00Z"⟩],
      fun k =>
        if k = str "home" then
          .ok (combineScreen
            ⟨1, str "home", 2, str "Home", none, str "slot", str "system",
              none, none, str "2024-01-01T00:00:00Z"⟩
            ⟨2, str "pat", str "T", none, 3, str "def", str "ts"⟩)
        else .error .dbError⟩
    ⟨5, str "admin", none, []⟩ []).1 (str "home")
    (hashScreen 3 (str "2024-01-01T00:00:00Z")) (by decide)

/-- Witness for C6 at a concrete environment and an empty client hash map. -/
theorem delta_sync_partitions_witness :
    (getDeltaSync ⟨false, [], fun _ => [], .ok [], .ok [], fun _ => .error .dbError⟩
        ⟨7, str "teacher", none, [str "dashboard:read"]⟩ []).unchanged = [] ∧
    ((getDeltaSync ⟨false, [], fun _ => [], .ok [], .ok [], fun _ => .error .dbError⟩
        ⟨7, str "teacher", none, [str "dashboard:read"]⟩ []).changed).map (fun kv => kv.1) =
      ((getFullBundle ⟨false, [], fun _ => [], .ok [], .ok [], fun _ => .error .dbError⟩
        ⟨7, str "teacher", none, [str "dashboard:read"]⟩ []).hashes).map (fun kv => kv.1) :=
  (delta_sync_partitions ⟨false, [], fun _ => [], .ok [], .ok [], fun _ => .error .dbError⟩
    ⟨7, str "teacher", none, [str "dashboard:read"]⟩ []).2.2.2.2.2

/-- C7: for an active existing user without a membership in the target
school, SwitchContext fails with the no-membership error whenever the
unscoped (global) context resolves to nothing, whatever the school lookup
would return; when a global context does resolve and the school lookup finds
no school, it fails with the invalid-target error. -/
theorem switch_context_error_precedence (env : AuthEnv) (userID targetSchoolID : Nat)
    (user : User)
    (hUser : env.findUserByID userID = .ok (some user))
    (hActive : user.isActive = true)
    (hMem : env.findMembership userID targetSchoolID = .ok none) :
    (buildUserContext env userID none = .ok none →
      switchContext env userID targetSchoolID = .error .noMembership) ∧
    (∀ c, buildUserContext env userID none = .ok (some c) →
      env.findSchoolByID targetSchoolID = .ok none →
      switchContext env userID targetSchoolID = .error .invalidSchoolID) := by
  constructor
  · intro hctx
    unfold switchContext
    simp [hUser, hActive, hMem, hctx]
  · intro c hctx hschool
    unfold switchContext
    simp [hUser, hActive, hMem, hctx, hschool]

/-- Witness for C7: a concrete store without membership rows or role
assignments yields the no-membership error even though the school exists. -/
theorem switch_context_error_precedence_witness :
    switchContext
      ⟨fun _ => .ok (some ⟨1, str "u@x", true⟩), fun _ _ => .ok none,
       fun _ => .ok (some ⟨2, str "School"⟩), fun _ _ _ => .ok [],
       fun _ => .ok none, fun _ _ _ => .ok [], .ok ⟨str "at", str "rt", 900⟩⟩
      1 2 = .error .noMembership :=
  (switch_context_error_precedence
    ⟨fun _ => .ok (some ⟨1, str "u@x", true⟩), fun _ _ => .ok none,
     fun _ => .ok (some ⟨2, str "School"⟩), fun _ _ _ => .ok [],
     fun _ => .ok none, fun _ _ _ => .ok [], .ok ⟨str "at", str "rt", 900⟩⟩
    1 2 ⟨1, str "u@x", true⟩ rfl rfl rfl).1 rfl

/-- C9: buildUserContext returns absent (not an error) when no active
assignment matches, and a failing permission fetch still yields a context
for the resolved role with an empty permission set. -/
theorem build_user_context_absent_and_soft_permissions (env : AuthEnv)
    (userID : Nat) (schoolID : Option Nat) :
    (env.findByUserInContext userID schoolID none = .ok [] →
      buildUserContext env userID schoolID = .ok none) ∧
    (∀ ur rest role e,
      env.findByUserInContext userID schoolID none = .ok (ur :: rest) →
      env.roleFindByID ur.roleId = .ok (some role) →
      env.getUserPermissions userID schoolID none = .error e →
      buildUserContext env userID schoolID =
        .ok (some { roleId := role.id, roleName := role.name,
                    schoolId := schoolID, permissions := [] })) := by
  constructor
  · intro h
    unfold buildUserContext
    simp [h]
  · intro ur rest role e h1 h2 h3
    unfold buildUserContext
    simp [h1, h2, h3]

/-- Witness for C9 at a concrete store whose permission query fails. -/
theorem build_user_context_soft_permissions_witness :
    buildUserContext
      ⟨fun _ => .ok none, fun _ _ => .ok none, fun _ => .ok none,
       fun _ _ _ => .ok [⟨10, 7, none, none⟩],
       fun _ => .ok (some ⟨7, str "admin"⟩),
       fun _ _ _ => .error .dbError, .ok ⟨str "at", str "rt", 900⟩⟩ 1 none =
      .ok (some ⟨7, str "admin", none, []⟩) :=
  (build_user_context_absent_and_soft_permissions
    ⟨fun _ => .ok none, fun _ _ => .ok none, fun _ => .ok none,
     fun _ _ _ => .ok [⟨10, 7, none, none⟩],
     fun _ => .ok (some ⟨7, str "admin"⟩),
     fun _ _ _ => .error .dbError, .ok ⟨str "at", str "rt", 900⟩⟩ 1 none).2
    ⟨10, 7, none, none⟩ [] ⟨7, str "admin"⟩ .dbError rfl rfl rfl

/-- C10: at a repository state where the first matching assignment references
a role id whose lookup returns no role and no error (exactly what
postgresRoleRepository.FindByID does for a missing or inactive role),
buildUserContext dereferences the nil role and panics instead of returning a
context or nil. -/
theorem build_user_context_nil_role_panics :
    buildUserContext
      ⟨fun _ => .ok none, fun _ _ => .ok none, fun _ => .ok none,
       fun _ _ _ => .ok [⟨10, 7, none, none⟩],
       fun _ => .ok none,
       fun _ _ _ => .ok [], .ok ⟨str "at", str "rt", 900⟩⟩ 1 none =
      .error .nilRoleDeref := rfl

/-- C8 counterexample: an update that supplies a definition byte-identical to
the stored one still increments the version — the code tests presence of the
field, never compares it with the stored blob. -/
theorem update_template_identity_bumps_cex :
    (⟨2, str "list", str "T", none, 3, str "defblob", str "t0"⟩ :
        ScreenTemplate).definition = str "defblob" ∧
    (updateTemplate ⟨2, str "list", str "T", none, 3, str "defblob", str "t0"⟩
      ⟨none, none, none, some (str "defblob")⟩ (str "t1")).version = 4 :=
  ⟨rfl, rfl⟩

/-- C8 amended: the version increments exactly when the update request
supplies a definition field at all, identical to the stored blob or not;
updates touching only pattern, name or description leave it unchanged. -/
theorem update_template_version_amended (template : ScreenTemplate)
    (req : UpdateTemplateReq) (now : Str) :
    (req.definition = none →
      (updateTemplate template req now).version = template.version) ∧
    (∀ d, req.definition = some d →
      (updateTemplate template req now).version = template.version + 1) := by
  obtain ⟨rp, rn, rd, rdef⟩ := req
  constructor
  · intro h
    simp only at h
    subst h
    unfold updateTemplate
    rcases rp with _ | p <;> rcases rn with _ | n2 <;> rcases rd with _ | d <;> simp
  · intro d0 h
    simp only at h
    subst h
    unfold updateTemplate
    rcases rp with _ | p <;> rcases rn with _ | n2 <;> rcases rd with _ | d <;> simp

/-- Witness for C8 amended: a pattern-only update leaves the version at 3. -/
theorem update_template_version_amended_witness :
    (updateTemplate ⟨2, str "list", str "T", none, 3, str "defblob", str "t0"⟩
      ⟨some (str "grid"), none, none, none⟩ (str "t1")).version = 3 :=
  (update_template_version_amended
    ⟨2, str "list", str "T", none, 3, str "defblob", str "t0"⟩
    ⟨some (str "grid"), none, none, none⟩ (str "t1")).1 rfl
